import Mathlib

/-!
Kaleidoscope front end (`src/main.cpp`): tokenizer and recursive-descent parser.

A shallow embedding of the lexer `gettok`, the precedence table, the AST
constructors and the parser functions of `src/main.cpp`, followed by theorems
about them.

Conventions of the embedding:

* characters and tokens are C `int`s, modelled as `Int`; `EOF` is `-1`;
* standard input is a finite list of bytes; `getchar` on the empty list
  returns `EOF` and leaves the list empty;
* a `double` is modelled by the exact decimal number its text denotes, kept as
  a numerator and a power of ten (rounding to binary64 is not modelled);
* the process-wide globals (`LastChar`, `IndentifierStr`, `NumVal`, `CurTok`,
  `BinopPrecedence`) and the text written to `stderr` are fields of an
  explicit state that every function takes and returns;
* a null `unique_ptr` is `none`, a non-null one is `some node`;
* the mutually recursive parser functions take a fuel argument that bounds the
  depth of nested calls and loop iterations; `none` as the whole result means
  that the fuel ran out.
-/

namespace Kaleidoscope

/-! ## Lexer -/

/-- Value of the C constant `EOF`. -/
abbrev EOF : Int := -1

/-- Token `tok_eof` of `enum Token`. -/
abbrev tok_eof : Int := -1
/-- Token `tok_def` of `enum Token`. -/
abbrev tok_def : Int := -2
/-- Token `tok_extern` of `enum Token`. -/
abbrev tok_extern : Int := -3
/-- Token `tok_identifier` of `enum Token`. -/
abbrev tok_identifier : Int := -4
/-- Token `tok_number` of `enum Token`. -/
abbrev tok_number : Int := -5

/-- Character code of a character literal such as `'('`, as a C `int`. -/
def chr (c : Char) : Int := (c.toNat : Int)

/-- Library predicate `isspace` in the "C" locale: space, `\t`, `\n`, `\v`, `\f`, `\r`. -/
def isspace (c : Int) : Bool := c == 32 || (decide (9 ≤ c) && decide (c ≤ 13))

/-- Library predicate `isdigit`. -/
def isdigit (c : Int) : Bool := decide (48 ≤ c) && decide (c ≤ 57)

/-- Library predicate `isalpha` in the "C" locale. -/
def isalpha (c : Int) : Bool :=
  (decide (65 ≤ c) && decide (c ≤ 90)) || (decide (97 ≤ c) && decide (c ≤ 122))

/-- Library predicate `isalnum`. -/
def isalnum (c : Int) : Bool := isalpha c || isdigit c

/-- Library predicate `isascii`: no bit above the low seven is set. -/
def isascii (c : Int) : Bool := decide (0 ≤ c) && decide (c ≤ 127)

/-- The `char` that an `int` character code converts to (used when a character
is stored into a `std::string` or a `char` member). -/
def toChar (c : Int) : Char := Char.ofNat c.toNat

/-- An element of the input list read as a byte: an `unsigned char` converted
to `int`. -/
def byte (b : Nat) : Int := ((b % 256 : Nat) : Int)

/-- Library function `getchar` on the rest of standard input: the next byte as
a non-negative `int`, or `EOF` when the input is exhausted. -/
def getchar : List Nat → Int × List Nat
  | [] => (EOF, [])
  | b :: rest => (byte b, rest)

/-- Digits at the front of a character list. -/
def takeDigits : List Char → List Char
  | [] => []
  | c :: cs => if isdigit (chr c) then c :: takeDigits cs else []

/-- What follows the digits at the front of a character list. -/
def dropDigits : List Char → List Char
  | [] => []
  | c :: cs => if isdigit (chr c) then dropDigits cs else c :: cs

/-- Natural number written by a list of decimal digits, most significant first. -/
def digitsValue (ds : List Char) : Nat :=
  ds.foldl (fun acc d => 10 * acc + (d.toNat - 48)) 0

/-- A `double`, modelled exactly as the decimal `mant / 10 ^ scale`. -/
structure Double where
  mant : Nat
  scale : Nat
deriving DecidableEq, Repr

/-- The `double` zero. -/
def Double.zero : Double := { mant := 0, scale := 0 }

/-- Library function `strtod` of the C standard library (not part of the
repository), modelled from the C standard and restricted to the texts `gettok`
passes to it (digits and decimal points only): the longest prefix of the form
`digits [ "." digits ]` or `"." digits` that holds at least one digit is
converted; when there is no such prefix no conversion is performed and the
result is zero. -/
def strtod (str : String) : Double :=
  let ip := takeDigits str.data
  let rest := dropDigits str.data
  let fp := match rest with
    | '.' :: more => takeDigits more
    | _ => []
  if ip.isEmpty && fp.isEmpty then Double.zero
  else { mant := digitsValue (ip ++ fp), scale := fp.length }

/-- State of the tokenizer: the unread input, the function-local static
`LastChar`, and the globals `IndentifierStr` and `NumVal`. -/
structure LexState where
  input : List Nat
  LastChar : Int
  IndentifierStr : String
  NumVal : Double
deriving DecidableEq

/-- Loop `while(isspace(LastChar)) LastChar = getchar();` of `gettok`. -/
def skipSpace (c : Int) : List Nat → Int × List Nat
  | [] => if isspace c then (EOF, []) else (c, [])
  | b :: rest => if isspace c then skipSpace (byte b) rest else (c, b :: rest)

/-- Loop `while(isalnum((LastChar = getchar()))) IndentifierStr += LastChar;`
of `gettok`: returns the identifier text, the new `LastChar` and the unread
input. -/
def readIdent (acc : String) : List Nat → String × Int × List Nat
  | [] => (acc, EOF, [])
  | b :: rest =>
    if isalnum (byte b) then readIdent (acc.push (toChar (byte b))) rest
    else (acc, byte b, rest)

/-- Loop `do { NumStr += LastChar; LastChar = getchar(); } while (isdigit(LastChar) || LastChar == '.');`
of `gettok`, entered with the first character already appended to `acc`. -/
def readNumber (acc : String) : List Nat → String × Int × List Nat
  | [] => (acc, EOF, [])
  | b :: rest =>
    if isdigit (byte b) || byte b == chr '.' then
      readNumber (acc.push (toChar (byte b))) rest
    else (acc, byte b, rest)

/-- Loop `do { LastChar = getchar(); } while (LastChar != EOF && LastChar != '\n' && LastChar != '\r');`
of `gettok`. -/
def skipComment : List Nat → Int × List Nat
  | [] => (EOF, [])
  | b :: rest =>
    if byte b != chr '\n' && byte b != chr '\r' then skipComment rest
    else (byte b, rest)

/-- Function `gettok` with a bound on the number of nested `return gettok();`
calls (one per skipped comment line). The branch for an exhausted bound is not
part of the source; it is never taken when the bound exceeds the length of the
unread input (`gettokAux_fuel`). -/
def gettokAux : Nat → LexState → Int × LexState
  | 0, s => (tok_eof, s)
  | fuel + 1, s =>
    let (c, inp) := skipSpace s.LastChar s.input
    if isalpha c then
      let (ident, c1, inp1) := readIdent (String.singleton (toChar c)) inp
      let s1 : LexState := { s with input := inp1, LastChar := c1, IndentifierStr := ident }
      if ident = "def" then (tok_def, s1)
      else if ident = "extern" then ( tok_extern, s1)
      else (tok_identifier, s1)
    else if isdigit c || c == chr '.' then
      let (numStr, c1, inp1) := readNumber (String.singleton (toChar c)) inp
      (tok_number, { s with input := inp1, LastChar := c1, NumVal := strtod numStr })
    else if c == chr '#' then
      let (c1, inp1) := skipComment inp
      if c1 != EOF then gettokAux fuel { s with input := inp1, LastChar := c1 }
      else (tok_eof, { s with input := inp1, LastChar := c1 })
    else if c == EOF then (tok_eof, { s with input := inp, LastChar := c })
    else
      let (c1, inp1) := getchar inp
      (c, { s with input := inp1, LastChar := c1 })

/-- Function `gettok`. Every nested call happens after at least one byte of
input has been read, so the length of the unread input plus one bounds the
nesting. -/
def gettok (s : LexState) : Int × LexState := gettokAux (s.input.length + 1) s

/-- Bytes of an ASCII text, for writing inputs as string literals. -/
def bytes (str : String) : List Nat := str.data.map Char.toNat

/-- Tokenizer state at process start: `LastChar` is initialised to a space and
the two global slots are empty and zero. -/
def lexInit (inp : List Nat) : LexState :=
  { input := inp, LastChar := chr ' ', IndentifierStr := "", NumVal := Double.zero }

/-! ## AST -/

/-- Content of a `double` data member of an object: `indeterminate` as long as
no initialiser or assignment has stored a value in it. -/
inductive DoubleMember where
  | indeterminate
  | value (v : Double)
deriving DecidableEq, Repr

/-- Class `ExprAST` with its four subclasses `NumberExprAST`,
`VariableExprAST`, `BinaryExprAST` and `CallExprAST`; each constructor carries
the data members of the subclass. -/
inductive ExprAST where
  | Number (Val : DoubleMember)
  | Variable (Name : String)
  | Binary (Op : Char) (LHS RHS : ExprAST)
  | Call (Callee : String) (Args : List ExprAST)

set_option linter.unusedVariables false in
/-- Constructor `NumberExprAST(double val): Val(Val){}`. In the
mem-initialiser both occurrences of `Val` name the data member (the parameter
is spelled `val`), so the member is initialised from itself and the parameter
is not used: the member stays indeterminate. -/
def NumberExprAST (val : Double) : ExprAST :=
  let Val : DoubleMember := DoubleMember.indeterminate
  ExprAST.Number Val

/-- Constructor `VariableExprAST(const string &Name): Name(Name) {}`. -/
def VariableExprAST (Name : String) : ExprAST := ExprAST.Variable Name

/-- Constructor `BinaryExprAST(char Op, LHS, RHS)`; the call site passes the
`int` token, which converts to `char`. -/
def BinaryExprAST (Op : Int) (LHS RHS : ExprAST) : ExprAST := ExprAST.Binary (toChar Op) LHS RHS

/-- Constructor `CallExprAST(const string &Callee, vector<unique_ptr<ExprAST>> Args)`. -/
def CallExprAST (Callee : String) (Args : List ExprAST) : ExprAST := ExprAST.Call Callee Args

/-- Class `PrototypeAST`. -/
structure PrototypeAST where
  Name : String
  Args : List String
deriving DecidableEq, Repr

/-- Class `FunctionAST`. -/
structure FunctionAST where
  Proto : PrototypeAST
  Body : ExprAST

/-! ## Precedence table -/

/-- A `std::map<char, int>`: the entries in increasing key order. -/
abbrev Table := List (Int × Int)

/-- Member `find` of the map: the value stored under a key, if any. -/
def Table.find : Table → Int → Option Int
  | [], _ => none
  | (k1, v1) :: rest, k => if k1 = k then some v1 else Table.find rest k

/-- Store `v` under `k`, keeping the keys ordered and unique. -/
def Table.set : Table → Int → Int → Table
  | [], k, v => [(k, v)]
  | (k1, v1) :: rest, k, v =>
    if k < k1 then (k, v) :: (k1, v1) :: rest
    else if k = k1 then (k, v) :: rest
    else (k1, v1) :: Table.set rest k v

/-- Member `operator[]` of the map, read: the value under the key, and the map
afterwards; a key that is absent is first inserted with the value `0`. -/
def Table.index (m : Table) (k : Int) : Int × Table :=
  match Table.find m k with
  | some v => (v, m)
  | none => (0, Table.set m k 0)

/-! ## Parser -/

/-- State of the parser: the tokenizer state, the globals `CurTok` and
`BinopPrecedence`, and what has been written to `stderr` (one entry per
`fprintf`). -/
structure PState where
  lex : LexState
  CurTok : Int
  BinopPrecedence : Table
  stderr : List String

/-- Function `getNextToken`: `CurTok = gettok()`. -/
def getNextToken (s : PState) : PState :=
  let (tok, lx) := gettok s.lex
  { s with lex := lx, CurTok := tok }

/-- Function `GetTokPrecedence`. -/
def GetTokPrecedence (s : PState) : Int × PState :=
  if !isascii s.CurTok then (-1, s)
  else
    let (TokPrec, tbl) := Table.index s.BinopPrecedence s.CurTok
    let s1 : PState := { s with BinopPrecedence := tbl }
    if TokPrec ≤ 0 then (-1, s1) else (TokPrec, s1)

/-- Function `LogError`: writes `"Error: %s\n"` to `stderr` and returns a null
pointer. -/
def LogError (Str : String) (s : PState) : Option ExprAST × PState :=
  (none, { s with stderr := s.stderr ++ ["Error: " ++ Str ++ "\n"] })

/-- Function `LogErrorP`: calls `LogError` and returns a null pointer. -/
def LogErrorP (Str : String) (s : PState) : Option PrototypeAST × PState :=
  (none, (LogError Str s).2)

/-- Function `ParseNumberExpr`. -/
def ParseNumberExpr (s : PState) : Option ExprAST × PState :=
  let Result := NumberExprAST s.lex.NumVal
  (some Result, getNextToken s)

mutual

/-- Function `ParseParenExpr`. -/
def ParseParenExpr : Nat → PState → Option (Option ExprAST × PState)
  | 0, _ => none
  | fuel + 1, s =>
    let s1 := getNextToken s
    match ParseExpression fuel s1 with
    | none => none
    | some (none, s2) => some (none, s2)
    | some (some V, s2) =>
      if s2.CurTok != chr ')' then some (LogError "expected ')'" s2)
      else some (some V, getNextToken s2)

/-- Loop `while(true)` of `ParseIndentifierExpr`, which collects the
arguments of a call into `Args`; a null result stands for the two `return`s
inside the loop, a list for the `break`. -/
def ParseCallArgs : Nat → List ExprAST → PState → Option (Option (List ExprAST) × PState)
  | 0, _, _ => none
  | fuel + 1, Args, s =>
    match ParseExpression fuel s with
    | none => none
    | some (none, s1) => some (none, s1)
    | some (some Arg, s1) =>
      if s1.CurTok == chr ')' then some (some (Args ++ [Arg]), s1)
      else if s1.CurTok != chr ',' then
        some (none, (LogError "Expected ')' or ',' in argumentlist" s1).2)
      else ParseCallArgs fuel (Args ++ [Arg]) (getNextToken s1)

/-- Function `ParseIndentifierExpr`. -/
def ParseIndentifierExpr : Nat → PState → Option (Option ExprAST × PState)
  | 0, _ => none
  | fuel + 1, s =>
    let IdName := s.lex.IndentifierStr
    let s1 := getNextToken s
    if s1.CurTok != chr '(' then some (some (VariableExprAST IdName), s1)
    else
      let s2 := getNextToken s1
      if s2.CurTok != chr ')' then
        match ParseCallArgs fuel [] s2 with
        | none => none
        | some (none, s3) => some (none, s3)
        | some (some Args, s3) => some (some (CallExprAST IdName Args), s3)
      else some (some (CallExprAST IdName []), s2)

/-- Function `ParsePrimary`. -/
def ParsePrimary : Nat → PState → Option (Option ExprAST × PState)
  | 0, _ => none
  | fuel + 1, s =>
    if s.CurTok = tok_identifier then ParseIndentifierExpr fuel s
    else if s.CurTok = tok_number then some (ParseNumberExpr s)
    else if s.CurTok = chr '(' then ParseParenExpr fuel s
    else some (LogError "Unkown token when expecting an expression" s)

/-- Function `ParseBinOpRHS`; each iteration of its `while(true)` loop is one
unfolding. -/
def ParseBinOpRHS : Nat → Int → ExprAST → PState → Option (Option ExprAST × PState)
  | 0, _, _, _ => none
  | fuel + 1, ExprPrec, LHS, s =>
    let (TokPrec, s1) := GetTokPrecedence s
    if TokPrec < ExprPrec then some (some LHS, s1)
    else
      let BinOp := s1.CurTok
      let s2 := getNextToken s1
      match ParsePrimary fuel s2 with
      | none => none
      | some (none, s3) => some (none, s3)
      | some (some RHS, s3) =>
        let (NextPrec, s4) := GetTokPrecedence s3
        if TokPrec < NextPrec then
          match ParseBinOpRHS fuel (TokPrec + 1) RHS s4 with
          | none => none
          | some (none, s5) => some (none, s5)
          | some (some RHS1, s5) => ParseBinOpRHS fuel ExprPrec (BinaryExprAST BinOp LHS RHS1) s5
        else ParseBinOpRHS fuel ExprPrec (BinaryExprAST BinOp LHS RHS) s4

/-- Function `ParseExpression`. -/
def ParseExpression : Nat → PState → Option (Option ExprAST × PState)
  | 0, _ => none
  | fuel + 1, s =>
    match ParsePrimary fuel s with
    | none => none
    | some (none, s1) => some (none, s1)
    | some (some LHS, s1) => ParseBinOpRHS fuel 0 LHS s1

end

/-- Loop `while(getNextToken()==tok_identifier) ArgNames.push_back(IndentifierStr);`
of `ParsePrototype`. -/
def ParseProtoArgs : Nat → List String → PState → Option (List String × PState)
  | 0, _, _ => none
  | fuel + 1, ArgNames, s =>
    let s1 := getNextToken s
    if s1.CurTok = tok_identifier then ParseProtoArgs fuel (ArgNames ++ [s1.lex.IndentifierStr]) s1
    else some (ArgNames, s1)

/-- Function `ParsePrototype`. -/
def ParsePrototype (fuel : Nat) (s : PState) : Option (Option PrototypeAST × PState) :=
  if s.CurTok != tok_identifier then some (LogErrorP "Expected function name in prototype" s)
  else
    let FnName := s.lex.IndentifierStr
    let s1 := getNextToken s
    if s1.CurTok != chr '(' then some (LogErrorP "Expected '(' in prototype" s1)
    else
      match ParseProtoArgs fuel [] s1 with
      | none => none
      | some (ArgNames, s2) =>
        if s2.CurTok != chr ')' then some (LogErrorP "Expected ')' in prototype" s2)
        else some (some { Name := FnName, Args := ArgNames }, getNextToken s2)

/-- Function `ParseDefinition`. -/
def ParseDefinition (fuel : Nat) (s : PState) : Option (Option FunctionAST × PState) :=
  let s1 := getNextToken s
  match ParsePrototype fuel s1 with
  | none => none
  | some (none, s2) => some (none, s2)
  | some (some Proto, s2) =>
    match ParseExpression fuel s2 with
    | none => none
    | some (none, s3) => some (none, s3)
    | some (some E, s3) => some (some { Proto := Proto, Body := E }, s3)

/-- Function `ParseTopLevelExpr`. -/
def ParseTopLevelExpr (fuel : Nat) (s : PState) : Option (Option FunctionAST × PState) :=
  match ParseExpression fuel s with
  | none => none
  | some (none, s1) => some (none, s1)
  | some (some E, s1) =>
    let Proto : PrototypeAST := { Name := "__anon_expr", Args := [] }
    some (some { Proto := Proto, Body := E }, s1)

/-- Function `ParseExtern`. -/
def ParseExtern (fuel : Nat) (s : PState) : Option (Option PrototypeAST × PState) :=
  let s1 := getNextToken s
  ParsePrototype fuel s1

/-- The four assignments to `BinopPrecedence` at the start of `main`. -/
def mainTable : Table :=
  Table.set (Table.set (Table.set (Table.set [] (chr '<') 10) (chr '+') 20) (chr '-') 20) (chr '*') 40

/-- State in which `main` calls `MainLoop`: the table is filled, the first
prompt is written and the first token is read. -/
def mainInit (inp : List Nat) : PState :=
  getNextToken
    { lex := lexInit inp, CurTok := 0, BinopPrecedence := mainTable, stderr := ["ready> "] }

/-! ## Driver -/

/-- Function `HandleDefinition`. -/
def HandleDefinition (fuel : Nat) (s : PState) : Option PState :=
  match ParseDefinition fuel s with
  | none => none
  | some (some _, s1) =>
    some { s1 with stderr := s1.stderr ++ ["Parsed a function definition.\n"] }
  | some (none, s1) => some (getNextToken s1)

/-- Function `HandleExtern`. -/
def HandleExtern (fuel : Nat) (s : PState) : Option PState :=
  match ParseExtern fuel s with
  | none => none
  | some (some _, s1) => some { s1 with stderr := s1.stderr ++ ["Parsed an extern.\n"] }
  | some (none, s1) => some (getNextToken s1)

/-- Function `HandleTopLevelExpression`. -/
def HandleTopLevelExpression (fuel : Nat) (s : PState) : Option PState :=
  match ParseTopLevelExpr fuel s with
  | none => none
  | some (some _, s1) => some { s1 with stderr := s1.stderr ++ ["Parsed a top-level exprs.\n"] }
  | some (none, s1) => some (getNextToken s1)

/-- Function `MainLoop`; each iteration of its `while(true)` loop is one
unfolding, and the fuel also bounds the parser calls of the iteration. The
result is the state in which the loop returns. -/
def MainLoop : Nat → PState → Option PState
  | 0, _ => none
  | fuel + 1, s =>
    let s0 : PState := { s with stderr := s.stderr ++ ["ready> "] }
    if s0.CurTok = tok_eof then some s0
    else if s0.CurTok = chr ';' then MainLoop fuel (getNextToken s0)
    else if s0.CurTok = tok_def then
      match HandleDefinition fuel s0 with
      | none => none
      | some s1 => MainLoop fuel s1
    else if s0.CurTok = tok_extern then
      match HandleExtern fuel s0 with
      | none => none
      | some s1 => MainLoop fuel s1
    else
      match HandleTopLevelExpression fuel s0 with
      | none => none
      | some s1 => MainLoop fuel s1

/-! ## Vocabulary of the statements -/

/-- A primary operand that is a single token: a number literal with the value
the tokenizer computed, or a variable reference with its name. -/
inductive Operand where
  | num (v : Double)
  | var (Name : String)

/-- Token the tokenizer returns for an operand. -/
def Operand.tok : Operand → Int
  | Operand.num _ => tok_number
  | Operand.var _ => tok_identifier

/-- Node the parser builds for an operand, with the constructors of the AST
classes. -/
def Operand.node : Operand → ExprAST
  | Operand.num v => NumberExprAST v
  | Operand.var Name => VariableExprAST Name

/-- The tokenizer slots hold the payload of the operand. -/
def Operand.payload : Operand → LexState → Prop
  | Operand.num v, lx => lx.NumVal = v
  | Operand.var Name, lx => lx.IndentifierStr = Name

/-- The token after the operand leaves it a single-token operand: an identifier
is a variable reference only when no `(` follows it. -/
def Operand.endsBefore : Operand → Int → Prop
  | Operand.num _, _ => True
  | Operand.var _, next => next ≠ chr '('

/-- Successive calls of `gettok` starting in `lx` return the listed tokens,
each call leaving the tokenizer in the state paired with its token. -/
def Reads : LexState → List (Int × LexState) → Prop
  | _, [] => True
  | lx, (tok, lx1) :: rest => gettok lx = (tok, lx1) ∧ Reads lx1 rest

/-- Tokenizer state after the given number of `gettok` calls. -/
def lexAfter : Nat → LexState → LexState
  | 0, lx => lx
  | k + 1, lx => lexAfter k (gettok lx).2

/-- Successive calls of `gettok` starting in the first state return one
identifier token per listed name, with that name in the identifier slot, and
end in the second state. -/
def ReadsNames : LexState → List String → LexState → Prop
  | lx, [], lx1 => lx1 = lx
  | lx, p :: ps, lx1 =>
    ∃ l, gettok lx = (tok_identifier, l) ∧ l.IndentifierStr = p ∧ ReadsNames l ps lx1

/-- Diagnostics discipline of one parser call that started with `before` on
`stderr`: a call that returns null has appended exactly one entry of the form
`Error: ...`, a call that returns a node has appended nothing; nothing is said
of a call cut off by the fuel bound. -/
def Reports {α : Type} (before : List String) : Option (Option α × PState) → Prop
  | none => True
  | some (none, s1) => ∃ msg : String, s1.stderr = before ++ ["Error: " ++ msg ++ "\n"]
  | some (some _, s1) => s1.stderr = before

/-- The text the tokenizer has still to process is `text`: its first byte is
the retained character `LastChar` and the rest is the unread input. -/
def LexState.pendingIs (lx : LexState) (text : List Nat) : Prop :=
  ∃ b tl, text = b :: tl ∧ lx.LastChar = byte b ∧ lx.input = tl

/-- Precedence `GetTokPrecedence` computes for a token from a table. -/
def precOf (tbl : Table) (tok : Int) : Int :=
  if isascii tok then
    match Table.find tbl tok with
    | some v => if v ≤ 0 then -1 else v
    | none => -1
  else -1

/-- A table that gives every token the precedence `main` gave it. -/
def TableOK (tbl : Table) : Prop := ∀ tok, precOf tbl tok = precOf mainTable tok

/-- The first `k` tokens that successive calls of `gettok` return, each with
the contents of the identifier slot and of the numeric slot after its call. -/
def tokenSeq : Nat → LexState → List (Int × String × Double)
  | 0, _ => []
  | k + 1, lx =>
    ((gettok lx).1, (gettok lx).2.IndentifierStr, (gettok lx).2.NumVal) :: tokenSeq k (gettok lx).2

/-- State after `GetTokPrecedence` has been called once for each of the listed
current tokens, in order. -/
def afterLookups : List Int → PState → PState
  | [], s => s
  | tok :: rest, s => afterLookups rest (GetTokPrecedence { s with CurTok := tok }).2

/-- Text of the shape the tokenizer gives identifiers: an ASCII letter followed
by ASCII letters and digits only. -/
def IsIdentText (str : String) : Prop :=
  ∃ c0 cs, str.data = c0 :: cs ∧ isalpha (chr c0) = true ∧ ∀ c ∈ cs, isalnum (chr c) = true

/-- Precedence of an operator character under the table of `main`. -/
def opPrec (c : Char) : Int := precOf mainTable (chr c)

/-- An entry of the in-order traversal of an expression tree: a leaf (any node
that is not a binary node) or the operator of a binary node. -/
inductive Item where
  | leaf (e : ExprAST)
  | op (c : Char)

/-- In-order traversal of the binary nodes of a tree. -/
def inorder : ExprAST → List Item
  | ExprAST.Binary Op LHS RHS => inorder LHS ++ Item.op Op :: inorder RHS
  | ExprAST.Number Val => [Item.leaf (ExprAST.Number Val)]
  | ExprAST.Variable Name => [Item.leaf (ExprAST.Variable Name)]
  | ExprAST.Call Callee Args => [Item.leaf (ExprAST.Call Callee Args)]

/-- Shape that precedence climbing gives a tree: a binary node that is the
right child of a binary node has strictly higher precedence than its parent,
and one that is the left child has precedence at least that of its parent. -/
inductive ClimbOK : ExprAST → Prop where
  | leaf (e : ExprAST) (h : ∀ Op LHS RHS, e ≠ ExprAST.Binary Op LHS RHS) : ClimbOK e
  | node (Op : Char) (LHS RHS : ExprAST) (hl : ClimbOK LHS) (hr : ClimbOK RHS)
      (hleft : ∀ Op1 L1 R1, LHS = ExprAST.Binary Op1 L1 R1 → opPrec Op ≤ opPrec Op1)
      (hright : ∀ Op1 L1 R1, RHS = ExprAST.Binary Op1 L1 R1 → opPrec Op < opPrec Op1) :
      ClimbOK (ExprAST.Binary Op LHS RHS)

/-- The operator-operand pairs `o1 p1 ... on pn` as traversal entries. -/
def chainTail : List (Int × Operand) → List Item
  | [] => []
  | (o, b) :: rest => Item.op (toChar o) :: Item.leaf b.node :: chainTail rest

/-- The token sequence `p0 o1 p1 ... on pn` as the traversal it should give:
the leaves are the nodes of the operands, the operators their characters. -/
def chainItems (p0 : Operand) (rest : List (Int × Operand)) : List Item :=
  Item.leaf p0.node :: chainTail rest

/-- With `cur` the current token and `lx` the tokenizer state, the input goes
on with the listed operators, each followed by its single-token operand, and
then with the token `stop`, which is current when the tokenizer state is
`lxEnd`. -/
def ReadsChain : Int → LexState → List (Int × Operand) → Int → LexState → Prop
  | cur, lx, [], stop, lxEnd => cur = stop ∧ lx = lxEnd
  | cur, lx, (o, b) :: rest, stop, lxEnd =>
    cur = o ∧ ∃ l1 l2 nxt, gettok lx = (b.tok, l1) ∧ b.payload l1 ∧ gettok l1 = (nxt, l2) ∧
      b.endsBefore nxt ∧ ReadsChain nxt l2 rest stop lxEnd

/-- Number of characters the tokenizer has still to process: the unread input,
and the retained character unless it is `EOF`. -/
def lexSize (lx : LexState) : Nat := lx.input.length + (if lx.LastChar = EOF then 0 else 1)

/-- The same count for a retained character and an unread input given apart. -/
def charsLeft (c : Int) (inp : List Nat) : Nat := inp.length + (if c = EOF then 0 else 1)

/-- Measure of what is left to parse: the current token unless it is `tok_eof`,
and what the tokenizer has still to process. -/
def pending (s : PState) : Nat := lexSize s.lex + (if s.CurTok = tok_eof then 0 else 1)

/-- A parser call started in `s` returned and left strictly less to parse. -/
def Consumes {α : Type} (s : PState) (r : Option (Option α × PState)) : Prop :=
  ∃ o s1, r = some (o, s1) ∧ pending s1 < pending s

/-- A parser call started in `s` returned and left no more to parse than there
was. -/
def Returns {α : Type} (s : PState) (r : Option (Option α × PState)) : Prop :=
  ∃ o s1, r = some (o, s1) ∧ pending s1 ≤ pending s

/-- A parser call started in `s` returned; with a node it left strictly less
to parse, and without one it either left strictly less or left the current
token and the tokenizer as they were. -/
def Progress {α : Type} (s : PState) (r : Option (Option α × PState)) : Prop :=
  ∃ o s1, r = some (o, s1) ∧ pending s1 ≤ pending s ∧
    (o ≠ none → pending s1 < pending s) ∧
    (o = none → pending s1 < pending s ∨ (s1.CurTok = s.CurTok ∧ s1.lex = s.lex))

/-! ## Lemmas on the tokenizer -/

theorem skipSpace_length (inp : List Nat) : ∀ c, (skipSpace c inp).2.length ≤ inp.length := by
  induction inp with
  | nil => intro c; simp only [skipSpace]; split_ifs <;> simp
  | cons b rest ih =>
    intro c
    simp only [skipSpace]
    split_ifs
    · exact Nat.le_succ_of_le (ih _)
    · exact Nat.le_refl _

theorem skipComment_length (inp : List Nat) :
    (skipComment inp).1 ≠ EOF → (skipComment inp).2.length < inp.length := by
  induction inp with
  | nil => intro h; simp [skipComment] at h
  | cons b rest ih =>
    intro h
    simp only [skipComment] at h ⊢
    split_ifs at h ⊢
    · exact Nat.lt_succ_of_lt (ih h)
    · exact Nat.lt_succ_self _

/-- The bound on nested calls in `gettokAux` is never reached once it exceeds
the length of the unread input: any two such bounds give the same result. -/
theorem gettokAux_fuel (n : Nat) :
    ∀ (m : Nat) (s : LexState), s.input.length < n → s.input.length < m →
      gettokAux n s = gettokAux m s := by
  induction n with
  | zero => intro m s h; omega
  | succ n ih =>
    intro m s hn hm
    obtain ⟨m, rfl⟩ : ∃ k, m = k + 1 := ⟨m - 1, by omega⟩
    rw [gettokAux, gettokAux]
    have hlen := skipSpace_length s.input s.LastChar
    rcases hsk : skipSpace s.LastChar s.input with ⟨c, inp⟩
    rw [hsk] at hlen
    simp only at hlen ⊢
    split_ifs with h1 h2 h3 h4 h5 h6
    all_goals first
      | rfl
      | skip
    have hcl := skipComment_length inp (by simpa using h6)
    exact ih m _ (by simp only; omega) (by simp only; omega)

theorem gettokAux_eq_gettok (n : Nat) (s : LexState) (h : s.input.length < n) :
    gettokAux n s = gettok s :=
  gettokAux_fuel n (s.input.length + 1) s h (Nat.lt_succ_self _)

/-! ## Lemmas on the precedence table -/

theorem Table.find_set (m : Table) (k v k1 : Int) :
    Table.find (Table.set m k v) k1 = if k = k1 then some v else Table.find m k1 := by
  induction m with
  | nil => simp [Table.set, Table.find]
  | cons e rest ih =>
    obtain ⟨k2, v2⟩ := e
    by_cases h1 : k < k2
    · by_cases h2 : k = k1
      · subst h2; simp [Table.set, Table.find, h1]
      · simp [Table.set, Table.find, h1, h2]
    · by_cases h3 : k = k2
      · subst h3
        by_cases h2 : k = k1
        · subst h2; simp [Table.set, Table.find]
        · simp [Table.set, Table.find, h2]
      · by_cases h2 : k = k1
        · subst h2
          have h4 : ¬ k2 = k := fun e => h3 e.symm
          simp [Table.set, Table.find, h1, h3, h4, ih]
        · simp [Table.set, Table.find, h1, h3, h2, ih]

theorem precOf_index (m : Table) (k k1 : Int) :
    precOf (Table.index m k).2 k1 = precOf m k1 := by
  unfold Table.index
  cases hf : Table.find m k with
  | some v => rfl
  | none =>
    simp only [precOf, Table.find_set]
    by_cases hk : k = k1
    · subst hk; simp [hf]
    · simp [hk]

theorem GetTokPrecedence_eq (s : PState) :
    GetTokPrecedence s =
      (precOf s.BinopPrecedence s.CurTok, { s with BinopPrecedence := (GetTokPrecedence s).2.BinopPrecedence }) := by
  unfold GetTokPrecedence precOf Table.index
  by_cases ha : isascii s.CurTok
  · cases hf : Table.find s.BinopPrecedence s.CurTok with
    | some v => by_cases hv : v ≤ 0 <;> simp [ha, hf, hv]
    | none => simp [ha, hf]
  · simp [ha]

theorem GetTokPrecedence_ok (s : PState) (h : TableOK s.BinopPrecedence) :
    ∃ t, TableOK t ∧
      GetTokPrecedence s = (precOf mainTable s.CurTok, { s with BinopPrecedence := t }) := by
  refine ⟨(GetTokPrecedence s).2.BinopPrecedence, ?_, ?_⟩
  · intro tok
    rw [← h tok]
    unfold GetTokPrecedence
    by_cases ha : isascii s.CurTok
    · have := precOf_index s.BinopPrecedence s.CurTok tok
      by_cases hv : (Table.index s.BinopPrecedence s.CurTok).1 ≤ 0 <;> simpa [ha, hv] using this
    · simp [ha]
  · rw [← h s.CurTok]
    exact GetTokPrecedence_eq s

theorem TableOK_mainTable : TableOK mainTable := fun _ => rfl

/-! ## Lemmas on single parser steps -/

theorem ParsePrimary_operand (a : Operand) (s : PState) (nxt : Int) (l1 : LexState) (n : Nat)
    (ha : s.CurTok = a.tok) (hp : a.payload s.lex) (h1 : gettok s.lex = (nxt, l1))
    (he : a.endsBefore nxt) :
    ParsePrimary (n + 2) s = some (some a.node, { s with lex := l1, CurTok := nxt }) := by
  cases a with
  | num v =>
    simp only [Operand.tok] at ha
    simp only [Operand.payload] at hp
    simp [ParsePrimary, ha, ParseNumberExpr, getNextToken, h1, Operand.node, hp]
  | var Name =>
    simp only [Operand.tok] at ha
    simp only [Operand.payload] at hp
    simp only [Operand.endsBefore] at he
    simp [ParsePrimary, ha, ParseIndentifierExpr, getNextToken, h1, Operand.node, hp, he]

theorem ParseBinOpRHS_stop (s : PState) (ExprPrec : Int) (LHS : ExprAST) (n : Nat)
    (h : TableOK s.BinopPrecedence) (hlt : precOf mainTable s.CurTok < ExprPrec) :
    ∃ t, TableOK t ∧
      ParseBinOpRHS (n + 1) ExprPrec LHS s = some (some LHS, { s with BinopPrecedence := t }) := by
  obtain ⟨t, ht, e⟩ := GetTokPrecedence_ok s h
  refine ⟨t, ht, ?_⟩
  simp [ParseBinOpRHS, e, hlt]

theorem ParseBinOpRHS_step (s : PState) (ExprPrec : Int) (LHS : ExprAST) (b : Operand)
    (nxt : Int) (l1 l2 : LexState) (n : Nat)
    (h : TableOK s.BinopPrecedence) (hge : ¬ precOf mainTable s.CurTok < ExprPrec)
    (h1 : gettok s.lex = (b.tok, l1)) (hb : b.payload l1) (h2 : gettok l1 = (nxt, l2))
    (he : b.endsBefore nxt) :
    ∃ t, TableOK t ∧
      ParseBinOpRHS (n + 3) ExprPrec LHS s =
        if precOf mainTable s.CurTok < precOf mainTable nxt then
          match ParseBinOpRHS (n + 2) (precOf mainTable s.CurTok + 1) b.node
              { lex := l2, CurTok := nxt, BinopPrecedence := t, stderr := s.stderr } with
          | none => none
          | some (none, s5) => some (none, s5)
          | some (some RHS1, s5) =>
            ParseBinOpRHS (n + 2) ExprPrec (BinaryExprAST s.CurTok LHS RHS1) s5
        else
          ParseBinOpRHS (n + 2) ExprPrec (BinaryExprAST s.CurTok LHS b.node)
            { lex := l2, CurTok := nxt, BinopPrecedence := t, stderr := s.stderr } := by
  obtain ⟨t1, ht1, e1⟩ := GetTokPrecedence_ok s h
  have hprim := ParsePrimary_operand b
    { lex := l1, CurTok := b.tok, BinopPrecedence := t1, stderr := s.stderr } nxt l2 n rfl hb h2 he
  obtain ⟨t2, ht2, e2⟩ := GetTokPrecedence_ok
    { lex := l2, CurTok := nxt, BinopPrecedence := t1, stderr := s.stderr } ht1
  refine ⟨t2, ht2, ?_⟩
  rw [ParseBinOpRHS, e1]
  simp only [hge, if_false, getNextToken, h1, hprim, e2]

theorem precOf_of_find_some (o p : Int) (h : Table.find mainTable o = some p) :
    precOf mainTable o = p ∧ 0 < p ∧ o ≠ chr '(' := by
  have hm : mainTable = [(42, 40), (43, 20), (45, 20), (60, 10)] := by decide
  rw [hm] at h ⊢
  simp only [Table.find] at h
  split_ifs at h with h1 h2 h3 h4
  all_goals (subst_vars; injection h with h; subst h; decide)

theorem precOf_of_find_none (o : Int) (h : Table.find mainTable o = none) :
    precOf mainTable o = -1 := by
  unfold precOf
  rw [h]
  simp

theorem Operand.endsBefore_operator (a : Operand) (o p : Int)
    (h : Table.find mainTable o = some p) : a.endsBefore o := by
  cases a with
  | num v => trivial
  | var Name => exact (precOf_of_find_some o p h).2.2

theorem Operand.node_ne_Binary (a : Operand) (Op : Char) (L R : ExprAST) :
    a.node ≠ ExprAST.Binary Op L R := by
  cases a <;> simp [Operand.node, NumberExprAST, VariableExprAST]

/-! ## Precedence and associativity -/

/-- Claim C1: with the table of `main`, for single-token operands `a`, `b`, `c`
(a number token, or an identifier token used as a variable, that is, one that
no `(` follows) and table operators `o1`, `o2` with
`precedence o1 < precedence o2`, `ParseExpression` on the tokens `a o1 b o2 c`
followed by a token `stop` that is not a table operator returns
`Binary o1 a (Binary o2 b c)` (with the current token left at `stop`), and does
not return `Binary o2 (Binary o1 a b) c`. The leaves are the nodes the AST
constructors build for the operands. -/
theorem precedence_higher_binds_tighter (a b c : Operand) (o1 o2 stop p1 p2 : Int)
    (s : PState) (l1 l2 l3 l4 l5 : LexState) (n : Nat)
    (htbl : s.BinopPrecedence = mainTable)
    (hp1 : Table.find mainTable o1 = some p1) (hp2 : Table.find mainTable o2 = some p2)
    (hlt : p1 < p2)
    (hstop : Table.find mainTable stop = none) (hend : c.endsBefore stop)
    (ha : s.CurTok = a.tok) (hap : a.payload s.lex)
    (hrd : Reads s.lex [(o1, l1), (b.tok, l2), (o2, l3), (c.tok, l4), (stop, l5)])
    (hbp : b.payload l2) (hcp : c.payload l4) :
    (∃ s1, ParseExpression (n + 5) s =
        some (some (ExprAST.Binary (toChar o1) a.node (ExprAST.Binary (toChar o2) b.node c.node)), s1)
      ∧ s1.CurTok = stop ∧ s1.lex = l5) ∧
    ∀ s1, ParseExpression (n + 5) s ≠
        some (some (ExprAST.Binary (toChar o2) (ExprAST.Binary (toChar o1) a.node b.node) c.node), s1) := by
  obtain ⟨h1, h2, h3, h4, h5, -⟩ := hrd
  obtain ⟨hq1, hpos1, -⟩ := precOf_of_find_some o1 p1 hp1
  obtain ⟨hq2, -, -⟩ := precOf_of_find_some o2 p2 hp2
  have hq3 := precOf_of_find_none stop hstop
  have hprimA : ParsePrimary (n + 4) s = _ :=
    ParsePrimary_operand a s o1 l1 (n + 2) ha hap h1 (a.endsBefore_operator o1 p1 hp1)
  obtain ⟨t1, ht1, e1⟩ := ParseBinOpRHS_step
    { lex := l1, CurTok := o1, BinopPrecedence := s.BinopPrecedence, stderr := s.stderr }
    0 a.node b o2 l2 l3 (n + 1) (htbl ▸ TableOK_mainTable) (by simp only [hq1]; omega)
    h2 hbp h3 (b.endsBefore_operator o2 p2 hp2)
  obtain ⟨t2, ht2, e2⟩ := ParseBinOpRHS_step
    { lex := l3, CurTok := o2, BinopPrecedence := t1, stderr := s.stderr }
    (p1 + 1) b.node c stop l4 l5 n ht1 (by simp only [hq2]; omega) h4 hcp h5 hend
  obtain ⟨t3, ht3, e3⟩ := ParseBinOpRHS_stop
    { lex := l5, CurTok := stop, BinopPrecedence := t2, stderr := s.stderr }
    (p1 + 1) (BinaryExprAST o2 b.node c.node) (n + 1) ht2 (by simp only [hq3]; omega)
  obtain ⟨t4, ht4, e4⟩ := ParseBinOpRHS_stop
    { lex := l5, CurTok := stop, BinopPrecedence := t3, stderr := s.stderr }
    0 (BinaryExprAST o1 a.node (BinaryExprAST o2 b.node c.node)) (n + 2) ht3
    (by simp only [hq3]; omega)
  have hres : ParseExpression (n + 5) s =
      some (some (ExprAST.Binary (toChar o1) a.node (ExprAST.Binary (toChar o2) b.node c.node)),
        { lex := l5, CurTok := stop, BinopPrecedence := t4, stderr := s.stderr }) := by
    rw [ParseExpression, hprimA]
    simp only
    rw [e1]
    simp only [hq1, hq2, hlt, if_true]
    rw [e2]
    have hnlt : ¬ p2 < precOf mainTable stop := by rw [hq3]; omega
    simp only [hq2, hnlt, if_false]
    rw [e3]
    simp only
    rw [e4]
    rfl
  refine ⟨⟨_, hres, rfl, rfl⟩, ?_⟩
  intro s1 hneg
  rw [hres] at hneg
  injection hneg with hneg
  injection hneg with hneg
  injection hneg with hneg
  injection hneg with _ hA
  exact a.node_ne_Binary _ _ _ hA

/-- Instance of claim C1 on the input `1+2*3`: the product is the right operand
of the sum. -/
theorem precedence_higher_binds_tighter_witness :
    (∃ s1, ParseExpression 5 (mainInit (bytes "1+2*3")) =
        some (some (ExprAST.Binary '+' (NumberExprAST ⟨1, 0⟩)
          (ExprAST.Binary '*' (NumberExprAST ⟨2, 0⟩) (NumberExprAST ⟨3, 0⟩))), s1)
      ∧ s1.CurTok = tok_eof ∧ s1.lex = lexAfter 5 (mainInit (bytes "1+2*3")).lex) ∧
    ∀ s1, ParseExpression 5 (mainInit (bytes "1+2*3")) ≠
        some (some (ExprAST.Binary '*' (ExprAST.Binary '+' (NumberExprAST ⟨1, 0⟩)
          (NumberExprAST ⟨2, 0⟩)) (NumberExprAST ⟨3, 0⟩)), s1) :=
  precedence_higher_binds_tighter (Operand.num ⟨1, 0⟩) (Operand.num ⟨2, 0⟩) (Operand.num ⟨3, 0⟩)
    (chr '+') (chr '*') tok_eof 20 40 (mainInit (bytes "1+2*3"))
    (lexAfter 1 (mainInit (bytes "1+2*3")).lex) (lexAfter 2 (mainInit (bytes "1+2*3")).lex)
    (lexAfter 3 (mainInit (bytes "1+2*3")).lex) (lexAfter 4 (mainInit (bytes "1+2*3")).lex)
    (lexAfter 5 (mainInit (bytes "1+2*3")).lex) 0
    rfl (by decide) (by decide) (by decide) (by decide) trivial rfl rfl
    ⟨by decide, by decide, by decide, by decide, by decide, trivial⟩ rfl rfl

/-- Claim C2: binary operators are left-associative. With the table of `main`,
for single-token operands `a`, `b`, `c` (a number token, or an identifier token
that no `(` follows) and table operators `o1`, `o2` of equal precedence,
`ParseExpression` on the tokens `a o1 b o2 c` followed by a token that is not a
table operator returns `Binary o2 (Binary o1 a b) c`. -/
theorem equal_precedence_left_associative (a b c : Operand) (o1 o2 stop p : Int)
    (s : PState) (l1 l2 l3 l4 l5 : LexState) (n : Nat)
    (htbl : s.BinopPrecedence = mainTable)
    (hp1 : Table.find mainTable o1 = some p) (hp2 : Table.find mainTable o2 = some p)
    (hstop : Table.find mainTable stop = none) (hend : c.endsBefore stop)
    (ha : s.CurTok = a.tok) (hap : a.payload s.lex)
    (hrd : Reads s.lex [(o1, l1), (b.tok, l2), (o2, l3), (c.tok, l4), (stop, l5)])
    (hbp : b.payload l2) (hcp : c.payload l4) :
    ∃ s1, ParseExpression (n + 5) s =
        some (some (ExprAST.Binary (toChar o2) (ExprAST.Binary (toChar o1) a.node b.node) c.node), s1)
      ∧ s1.CurTok = stop ∧ s1.lex = l5 := by
  obtain ⟨h1, h2, h3, h4, h5, -⟩ := hrd
  obtain ⟨hq1, hpos1, -⟩ := precOf_of_find_some o1 p hp1
  obtain ⟨hq2, -, -⟩ := precOf_of_find_some o2 p hp2
  have hq3 := precOf_of_find_none stop hstop
  have hprimA : ParsePrimary (n + 4) s = _ :=
    ParsePrimary_operand a s o1 l1 (n + 2) ha hap h1 (a.endsBefore_operator o1 p hp1)
  obtain ⟨t1, ht1, e1⟩ := ParseBinOpRHS_step
    { lex := l1, CurTok := o1, BinopPrecedence := s.BinopPrecedence, stderr := s.stderr }
    0 a.node b o2 l2 l3 (n + 1) (htbl ▸ TableOK_mainTable) (by simp only [hq1]; omega)
    h2 hbp h3 (b.endsBefore_operator o2 p hp2)
  obtain ⟨t2, ht2, e2⟩ := ParseBinOpRHS_step
    { lex := l3, CurTok := o2, BinopPrecedence := t1, stderr := s.stderr }
    0 (BinaryExprAST o1 a.node b.node) c stop l4 l5 n ht1 (by simp only [hq2]; omega)
    h4 hcp h5 hend
  obtain ⟨t3, ht3, e3⟩ := ParseBinOpRHS_stop
    { lex := l5, CurTok := stop, BinopPrecedence := t2, stderr := s.stderr }
    0 (BinaryExprAST o2 (BinaryExprAST o1 a.node b.node) c.node) (n + 1) ht2
    (by simp only [hq3]; omega)
  refine ⟨{ lex := l5, CurTok := stop, BinopPrecedence := t3, stderr := s.stderr }, ?_, rfl, rfl⟩
  rw [ParseExpression, hprimA]
  simp only
  rw [e1]
  simp only [hq1, hq2, lt_irrefl, if_false]
  rw [e2]
  have hnlt : ¬ p < precOf mainTable stop := by rw [hq3]; omega
  simp only [hq2, hnlt, if_false]
  rw [e3]
  rfl

/-- Instance of claim C2 on the input `1-2-3`: the first difference is the left
operand of the second. -/
theorem equal_precedence_left_associative_witness :
    ∃ s1, ParseExpression 5 (mainInit (bytes "1-2-3")) =
        some (some (ExprAST.Binary '-' (ExprAST.Binary '-' (NumberExprAST ⟨1, 0⟩)
          (NumberExprAST ⟨2, 0⟩)) (NumberExprAST ⟨3, 0⟩)), s1)
      ∧ s1.CurTok = tok_eof ∧ s1.lex = lexAfter 5 (mainInit (bytes "1-2-3")).lex :=
  equal_precedence_left_associative (Operand.num ⟨1, 0⟩) (Operand.num ⟨2, 0⟩) (Operand.num ⟨3, 0⟩)
    (chr '-') (chr '-') tok_eof 20 (mainInit (bytes "1-2-3"))
    (lexAfter 1 (mainInit (bytes "1-2-3")).lex) (lexAfter 2 (mainInit (bytes "1-2-3")).lex)
    (lexAfter 3 (mainInit (bytes "1-2-3")).lex) (lexAfter 4 (mainInit (bytes "1-2-3")).lex)
    (lexAfter 5 (mainInit (bytes "1-2-3")).lex) 0
    rfl (by decide) (by decide) (by decide) trivial rfl rfl
    ⟨by decide, by decide, by decide, by decide, by decide, trivial⟩ rfl rfl

/-! ## Parentheses -/

/-- Claim C5: parentheses override precedence and leave no node. With the table
of `main`, for single-token operands `a`, `b`, `c` (a number token, or an
identifier token that no `(` follows) and table operators `o1`, `o2` of any
precedences, `ParseExpression` on the tokens `( a o1 b ) o2 c` followed by a
token that is not a table operator (end of input, for one) returns
`Binary o2 (Binary o1 a b) c`: the left operand is exactly the tree of `a o1 b`. -/
theorem parentheses_override_precedence (a b c : Operand) (o1 o2 stop p1 p2 : Int)
    (s : PState) (l1 l2 l3 l4 l5 l6 l7 : LexState) (n : Nat)
    (htbl : s.BinopPrecedence = mainTable)
    (hp1 : Table.find mainTable o1 = some p1) (hp2 : Table.find mainTable o2 = some p2)
    (hstop : Table.find mainTable stop = none) (hend : c.endsBefore stop)
    (hcur : s.CurTok = chr '(')
    (hrd : Reads s.lex [(a.tok, l1), (o1, l2), (b.tok, l3), (chr ')', l4), (o2, l5),
      (c.tok, l6), (stop, l7)])
    (hap : a.payload l1) (hbp : b.payload l3) (hcp : c.payload l6) :
    ∃ s1, ParseExpression (n + 7) s =
        some (some (ExprAST.Binary (toChar o2) (ExprAST.Binary (toChar o1) a.node b.node) c.node), s1)
      ∧ s1.CurTok = stop ∧ s1.lex = l7 := by
  obtain ⟨h1, h2, h3, h4, h5, h6, h7, -⟩ := hrd
  obtain ⟨hq1, hpos1, -⟩ := precOf_of_find_some o1 p1 hp1
  obtain ⟨hq2, hpos2, -⟩ := precOf_of_find_some o2 p2 hp2
  have hq3 := precOf_of_find_none stop hstop
  have hq4 : precOf mainTable (chr ')') = -1 := by decide
  have hbe : b.endsBefore (chr ')') := by
    cases b with
    | num v => trivial
    | var Name => simp only [Operand.endsBefore]; decide
  -- inside the parentheses
  have hprimA : ParsePrimary (n + 3) { s with lex := l1, CurTok := a.tok } = _ :=
    ParsePrimary_operand a { s with lex := l1, CurTok := a.tok } o1 l2 (n + 1) rfl hap h2
      (a.endsBefore_operator o1 p1 hp1)
  obtain ⟨t1, ht1, e1⟩ := ParseBinOpRHS_step
    { lex := l2, CurTok := o1, BinopPrecedence := s.BinopPrecedence, stderr := s.stderr }
    0 a.node b (chr ')') l3 l4 n (htbl ▸ TableOK_mainTable) (by simp only [hq1]; omega)
    h3 hbp h4 hbe
  obtain ⟨t2, ht2, e2⟩ := ParseBinOpRHS_stop
    { lex := l4, CurTok := chr ')', BinopPrecedence := t1, stderr := s.stderr }
    0 (BinaryExprAST o1 a.node b.node) (n + 1) ht1 (by rw [hq4]; omega)
  have hinner : ParseExpression (n + 4) { s with lex := l1, CurTok := a.tok } =
      some (some (BinaryExprAST o1 a.node b.node),
        { lex := l4, CurTok := chr ')', BinopPrecedence := t2, stderr := s.stderr }) := by
    rw [ParseExpression, hprimA]
    simp only
    rw [e1]
    have hnlt : ¬ p1 < precOf mainTable (chr ')') := by rw [hq4]; omega
    simp only [hq1, hnlt, if_false]
    rw [e2]
  have hparen : ParsePrimary (n + 6) s =
      some (some (BinaryExprAST o1 a.node b.node),
        { lex := l5, CurTok := o2, BinopPrecedence := t2, stderr := s.stderr }) := by
    have hne1 : ¬ chr '(' = tok_identifier := by decide
    have hne2 : ¬ chr '(' = tok_number := by decide
    rw [ParsePrimary]
    simp only [hcur, hne1, hne2, if_false, if_true]
    rw [ParseParenExpr]
    simp only [getNextToken, h1, hinner, h5, bne_self_eq_false, Bool.false_eq_true, if_false]
  -- after the parentheses
  obtain ⟨t3, ht3, e3⟩ := ParseBinOpRHS_step
    { lex := l5, CurTok := o2, BinopPrecedence := t2, stderr := s.stderr }
    0 (BinaryExprAST o1 a.node b.node) c stop l6 l7 (n + 3) ht2 (by simp only [hq2]; omega)
    h6 hcp h7 hend
  obtain ⟨t4, ht4, e4⟩ := ParseBinOpRHS_stop
    { lex := l7, CurTok := stop, BinopPrecedence := t3, stderr := s.stderr }
    0 (BinaryExprAST o2 (BinaryExprAST o1 a.node b.node) c.node) (n + 4) ht3
    (by simp only [hq3]; omega)
  refine ⟨{ lex := l7, CurTok := stop, BinopPrecedence := t4, stderr := s.stderr }, ?_, rfl, rfl⟩
  rw [ParseExpression, hparen]
  simp only
  rw [e3]
  have hnlt : ¬ p2 < precOf mainTable stop := by rw [hq3]; omega
  simp only [hq2, hnlt, if_false]
  rw [e4]
  rfl

/-- Instance of claim C5 on the input `(1+2)*3`: the sum is the left operand of
the product. -/
theorem parentheses_override_precedence_witness :
    ∃ s1, ParseExpression 7 (mainInit (bytes "(1+2)*3")) =
        some (some (ExprAST.Binary '*' (ExprAST.Binary '+' (NumberExprAST ⟨1, 0⟩)
          (NumberExprAST ⟨2, 0⟩)) (NumberExprAST ⟨3, 0⟩)), s1)
      ∧ s1.CurTok = tok_eof ∧ s1.lex = lexAfter 7 (mainInit (bytes "(1+2)*3")).lex :=
  parentheses_override_precedence (Operand.num ⟨1, 0⟩) (Operand.num ⟨2, 0⟩) (Operand.num ⟨3, 0⟩)
    (chr '+') (chr '*') tok_eof 20 40 (mainInit (bytes "(1+2)*3"))
    (lexAfter 1 (mainInit (bytes "(1+2)*3")).lex) (lexAfter 2 (mainInit (bytes "(1+2)*3")).lex)
    (lexAfter 3 (mainInit (bytes "(1+2)*3")).lex) (lexAfter 4 (mainInit (bytes "(1+2)*3")).lex)
    (lexAfter 5 (mainInit (bytes "(1+2)*3")).lex) (lexAfter 6 (mainInit (bytes "(1+2)*3")).lex)
    (lexAfter 7 (mainInit (bytes "(1+2)*3")).lex) 0
    rfl (by decide) (by decide) (by decide) trivial (by decide)
    ⟨by decide, by decide, by decide, by decide, by decide, by decide, by decide, trivial⟩
    rfl rfl rfl

/-! ## Calls -/

/-- Claim C3 at the input `f(g(x), 2)`: alone, `g(x)` parses to
`Call g [Variable x]` and `2` to a number node, but the call parses to
`Call f [Call g [Variable x]]`: the closing parenthesis of the inner call is
still the current token when the argument loop of the outer call tests for
`)`, so the loop ends and the second argument is never parsed. -/
theorem call_drops_argument_after_nested_call (n : Nat) :
    (ParseExpression (n + 8) (mainInit (bytes "g(x)"))).map Prod.fst =
        some (some (ExprAST.Call "g" [ExprAST.Variable "x"])) ∧
    (ParseExpression (n + 4) (mainInit (bytes "2"))).map Prod.fst =
        some (some (NumberExprAST ⟨2, 0⟩)) ∧
    (ParseExpression (n + 12) (mainInit (bytes "f(g(x), 2)"))).map Prod.fst =
        some (some (ExprAST.Call "f" [ExprAST.Call "g" [ExprAST.Variable "x"]])) ∧
    (ParseExpression (n + 12) (mainInit (bytes "f(g(x), 2)"))).map Prod.fst ≠
        some (some (ExprAST.Call "f" [ExprAST.Call "g" [ExprAST.Variable "x"], NumberExprAST ⟨2, 0⟩])) := by
  refine ⟨rfl, rfl, rfl, ?_⟩
  intro h
  simp [show (ParseExpression (n + 12) (mainInit (bytes "f(g(x), 2)"))).map Prod.fst =
        some (some (ExprAST.Call "f" [ExprAST.Call "g" [ExprAST.Variable "x"]])) from rfl] at h

/-- Claim C6 at the input `f(x)+1`: `ParseExpression` returns `Call f [Variable x]`
with the closing parenthesis still the current token (the token after it, `+`,
has not been read), and so does not return `Binary + (Call f [x]) 1`. -/
theorem call_leaves_closing_paren_current (n : Nat) :
    ∃ s1, ParseExpression (n + 8) (mainInit (bytes "f(x)+1")) =
        some (some (ExprAST.Call "f" [ExprAST.Variable "x"]), s1)
      ∧ s1.CurTok = chr ')' ∧ (gettok s1.lex).1 = chr '+' :=
  ⟨_, rfl, rfl, rfl⟩

/-- Claim C8 at the input `foo(g(1)`: the argument `g(1)` is followed by end of
input, yet `ParseExpression` returns the node `Call foo [Call g [1]]` and
writes no diagnostic (`stderr` still holds only the prompt written by `main`). -/
theorem unterminated_call_accepted_after_nested_call (n : Nat) :
    ∃ s1, ParseExpression (n + 12) (mainInit (bytes "foo(g(1)")) =
        some (some (ExprAST.Call "foo" [ExprAST.Call "g" [NumberExprAST ⟨1, 0⟩]]), s1)
      ∧ s1.stderr = (mainInit (bytes "foo(g(1)")).stderr ∧ s1.stderr = ["ready> "]
      ∧ s1.CurTok = chr ')' ∧ (gettok s1.lex).1 = tok_eof :=
  ⟨_, rfl, rfl, rfl, rfl, rfl⟩

/-! ## Number literals -/

/-- Claim C7 at the input `42`: the tokenizer produced the value 42 for the
current number token, and `ParsePrimary` advances to the next token, but the
node it returns holds an indeterminate value, not 42. -/
theorem number_node_value_indeterminate (n : Nat) :
    (mainInit (bytes "42")).CurTok = tok_number ∧
    (mainInit (bytes "42")).lex.NumVal = ⟨42, 0⟩ ∧
    ParsePrimary (n + 1) (mainInit (bytes "42")) =
      some (some (ExprAST.Number DoubleMember.indeterminate), getNextToken (mainInit (bytes "42"))) ∧
    ParsePrimary (n + 1) (mainInit (bytes "42")) ≠
      some (some (ExprAST.Number (DoubleMember.value ⟨42, 0⟩)), getNextToken (mainInit (bytes "42"))) := by
  refine ⟨rfl, rfl, rfl, ?_⟩
  intro h
  simp [show ParsePrimary (n + 1) (mainInit (bytes "42")) =
      some (some (ExprAST.Number DoubleMember.indeterminate), getNextToken (mainInit (bytes "42")))
      from rfl] at h

/-! ## Definitions -/

theorem ParseProtoArgs_names (ps : List String) :
    ∀ (acc : List String) (s : PState) (lx1 l2 : LexState) (tok : Int) (n : Nat),
      ReadsNames s.lex ps lx1 → gettok lx1 = (tok, l2) → tok ≠ tok_identifier →
      ParseProtoArgs (n + 1 + ps.length) acc s =
        some (acc ++ ps, { s with lex := l2, CurTok := tok }) := by
  induction ps with
  | nil =>
    intro acc s lx1 l2 tok n hr hg hne
    simp only [ReadsNames] at hr
    subst hr
    simp [ParseProtoArgs, getNextToken, hg, hne]
  | cons p ps ih =>
    intro acc s lx1 l2 tok n hr hg hne
    obtain ⟨l, hl, hp, hrest⟩ := hr
    have := ih (acc ++ [p]) { s with lex := l, CurTok := tok_identifier } lx1 l2 tok n hrest hg hne
    show ParseProtoArgs ((n + 1 + ps.length) + 1) acc s = _
    rw [ParseProtoArgs]
    simp only [getNextToken, hl, if_true, hp, this, List.append_assoc, List.singleton_append]

/-- Claim C4: for every name `name`, every list `params` of identifier tokens
written consecutively and every expression whose parse from the token after
the closing parenthesis returns the tree `E`, `ParseDefinition` on the tokens
`def name ( params ) e` returns the function with prototype name `name`,
parameters `params` in the order written, and body `E`. -/
theorem definition_round_trip (name : String) (params : List String) (s s1 : PState)
    (l1 l2 l3 l4 l5 : LexState) (first : Int) (fuel : Nat) (E : ExprAST)
    (hname : gettok s.lex = (tok_identifier, l1)) (hn : l1.IndentifierStr = name)
    (hopen : gettok l1 = (chr '(', l2))
    (hparams : ReadsNames l2 params l3)
    (hclose : gettok l3 = (chr ')', l4))
    (hfirst : gettok l4 = (first, l5))
    (hfuel : params.length < fuel)
    (hbody : ParseExpression fuel { s with lex := l5, CurTok := first } = some (some E, s1)) :
    ParseDefinition fuel s =
      some (some { Proto := { Name := name, Args := params }, Body := E }, s1) := by
  obtain ⟨n, rfl⟩ : ∃ n, fuel = n + 1 + params.length := ⟨fuel - (params.length + 1), by omega⟩
  have hargs := ParseProtoArgs_names params []
    { s with lex := l2, CurTok := chr '(' } l3 l4 (chr ')') n hparams hclose (by decide)
  have hne : (tok_identifier != tok_identifier) = false := by decide
  have hproto : ParsePrototype (n + 1 + params.length)
      { s with lex := l1, CurTok := tok_identifier } =
      some (some { Name := name, Args := params }, { s with lex := l5, CurTok := first }) := by
    unfold ParsePrototype
    simp only [hne, getNextToken, hopen, hargs, hn, hfirst, bne_self_eq_false,
      Bool.false_eq_true, if_false, List.nil_append]
  unfold ParseDefinition
  simp only [getNextToken, hname, hproto, hbody]

/-- Instance of claim C4 on the input `def add(a b) a+b`. -/
theorem definition_round_trip_witness :
    ParseDefinition 7 (mainInit (bytes "def add(a b) a+b")) =
      some (some { Proto := { Name := "add", Args := ["a", "b"] },
                   Body := ExprAST.Binary '+' (ExprAST.Variable "a") (ExprAST.Variable "b") },
        { lex := lexAfter 9 (mainInit (bytes "def add(a b) a+b")).lex, CurTok := tok_eof,
          BinopPrecedence := mainTable, stderr := ["ready> "] }) :=
  definition_round_trip "add" ["a", "b"] (mainInit (bytes "def add(a b) a+b")) _
    (lexAfter 1 (mainInit (bytes "def add(a b) a+b")).lex)
    (lexAfter 2 (mainInit (bytes "def add(a b) a+b")).lex)
    (lexAfter 4 (mainInit (bytes "def add(a b) a+b")).lex)
    (lexAfter 5 (mainInit (bytes "def add(a b) a+b")).lex)
    (lexAfter 6 (mainInit (bytes "def add(a b) a+b")).lex)
    tok_identifier 7 _ (by decide) rfl (by decide)
    ⟨lexAfter 3 (mainInit (bytes "def add(a b) a+b")).lex, by decide, rfl,
      lexAfter 4 (mainInit (bytes "def add(a b) a+b")).lex, by decide, rfl, rfl⟩
    (by decide) (by decide) (by decide) rfl

/-! ## Diagnostics -/

@[simp] theorem getNextToken_stderr (s : PState) : (getNextToken s).stderr = s.stderr := rfl

@[simp] theorem GetTokPrecedence_stderr (s : PState) : (GetTokPrecedence s).2.stderr = s.stderr := by
  unfold GetTokPrecedence
  split_ifs
  · rfl
  · rcases Table.index s.BinopPrecedence s.CurTok with ⟨v, tbl⟩
    dsimp only
    split_ifs <;> rfl

theorem Reports_LogError (Str : String) (s : PState) :
    Reports s.stderr (some (LogError Str s)) := ⟨Str, rfl⟩

theorem Reports_LogErrorP (Str : String) (s : PState) :
    Reports s.stderr (some (LogErrorP Str s)) := ⟨Str, rfl⟩

theorem Reports_of_stderr_eq {α : Type} {e1 e2 : List String} (h : e1 = e2)
    {r : Option (Option α × PState)} (hr : Reports e1 r) : Reports e2 r := h ▸ hr

theorem parser_Reports (n : Nat) :
    (∀ s, Reports s.stderr (ParseParenExpr n s)) ∧
    (∀ Args s, Reports s.stderr (ParseCallArgs n Args s)) ∧
    (∀ s, Reports s.stderr (ParseIndentifierExpr n s)) ∧
    (∀ s, Reports s.stderr (ParsePrimary n s)) ∧
    (∀ ExprPrec LHS s, Reports s.stderr (ParseBinOpRHS n ExprPrec LHS s)) ∧
    (∀ s, Reports s.stderr (ParseExpression n s)) := by
  induction n with
  | zero =>
    refine ⟨?_, ?_, ?_, ?_, ?_, ?_⟩ <;> intros <;>
      simp [ParseParenExpr, ParseCallArgs, ParseIndentifierExpr, ParsePrimary, ParseBinOpRHS,
        ParseExpression, Reports]
  | succ n ih =>
    obtain ⟨ihParen, ihArgs, ihIdent, ihPrim, ihBin, ihExpr⟩ := ih
    refine ⟨?_, ?_, ?_, ?_, ?_, ?_⟩
    · intro s
      rw [ParseParenExpr]
      have h := ihExpr (getNextToken s)
      rw [getNextToken_stderr] at h
      revert h
      cases ParseExpression n (getNextToken s) with
      | none => intro _; trivial
      | some r =>
        obtain ⟨o, s2⟩ := r
        cases o with
        | none => exact fun h => h
        | some V =>
          intro h
          have h2 : s2.stderr = s.stderr := h
          simp only
          split_ifs
          · exact Reports_of_stderr_eq h2 (Reports_LogError _ s2)
          · exact h2
    · intro Args s
      rw [ParseCallArgs]
      have h := ihExpr s
      revert h
      cases ParseExpression n s with
      | none => intro _; trivial
      | some r =>
        obtain ⟨o, s1⟩ := r
        cases o with
        | none => exact fun h => h
        | some Arg =>
          intro h
          have h1 : s1.stderr = s.stderr := h
          simp only
          split_ifs
          · exact h1
          · exact ⟨_, by rw [← h1]; rfl⟩
          · exact Reports_of_stderr_eq (by rw [getNextToken_stderr, h1]) (ihArgs _ (getNextToken s1))
    · intro s
      rw [ParseIndentifierExpr]
      simp only
      split_ifs
      · exact (rfl : (getNextToken s).stderr = s.stderr)
      · have h := ihArgs [] (getNextToken (getNextToken s))
        simp only [getNextToken_stderr] at h
        revert h
        cases ParseCallArgs n [] (getNextToken (getNextToken s)) with
        | none => intro _; trivial
        | some r =>
          obtain ⟨o, s3⟩ := r
          cases o with
          | none => exact fun h => h
          | some A => exact fun h => h
      · exact (rfl : (getNextToken (getNextToken s)).stderr = s.stderr)
    · intro s
      rw [ParsePrimary]
      split_ifs
      · exact ihIdent s
      · exact (rfl : (getNextToken s).stderr = s.stderr)
      · exact ihParen s
      · exact Reports_LogError _ s
    · intro ExprPrec LHS s
      rw [ParseBinOpRHS]
      have e1 : (GetTokPrecedence s).2.stderr = s.stderr := GetTokPrecedence_stderr s
      generalize GetTokPrecedence s = g1 at e1 ⊢
      obtain ⟨TokPrec, s1⟩ := g1
      simp only at e1 ⊢
      split_ifs
      · exact e1
      · have h := ihPrim (getNextToken s1)
        rw [getNextToken_stderr, e1] at h
        revert h
        cases ParsePrimary n (getNextToken s1) with
        | none => intro _; trivial
        | some r =>
          obtain ⟨o, s3⟩ := r
          cases o with
          | none => exact fun h => h
          | some RHS =>
            intro h
            have h3 : s3.stderr = s.stderr := h
            simp only
            have e4 : (GetTokPrecedence s3).2.stderr = s.stderr := by
              rw [GetTokPrecedence_stderr, h3]
            generalize GetTokPrecedence s3 = g4 at e4 ⊢
            obtain ⟨NextPrec, s4⟩ := g4
            simp only at e4 ⊢
            split_ifs
            · have h5 := ihBin (TokPrec + 1) RHS s4
              rw [e4] at h5
              revert h5
              cases ParseBinOpRHS n (TokPrec + 1) RHS s4 with
              | none => intro _; trivial
              | some r5 =>
                obtain ⟨o5, s5⟩ := r5
                cases o5 with
                | none => exact fun h => h
                | some RHS1 =>
                  intro h5
                  have h6 : s5.stderr = s.stderr := h5
                  exact Reports_of_stderr_eq h6 (ihBin _ _ s5)
            · exact Reports_of_stderr_eq e4 (ihBin _ _ s4)
    · intro s
      rw [ParseExpression]
      have h := ihPrim s
      revert h
      cases ParsePrimary n s with
      | none => intro _; trivial
      | some r =>
        obtain ⟨o, s1⟩ := r
        cases o with
        | none => exact fun h => h
        | some LHS =>
          intro h
          have h1 : s1.stderr = s.stderr := h
          exact Reports_of_stderr_eq h1 (ihBin _ _ s1)

theorem ParseProtoArgs_stderr (n : Nat) :
    ∀ (acc : List String) (s : PState) (r : List String × PState),
      ParseProtoArgs n acc s = some r → r.2.stderr = s.stderr := by
  induction n with
  | zero => intro acc s r h; simp [ParseProtoArgs] at h
  | succ n ih =>
    intro acc s r h
    rw [ParseProtoArgs] at h
    split_ifs at h
    · exact (ih _ _ _ h).trans rfl
    · injection h with h
      subst h
      rfl

theorem Reports_ParsePrototype (fuel : Nat) (s : PState) :
    Reports s.stderr (ParsePrototype fuel s) := by
  unfold ParsePrototype
  simp only
  split_ifs
  · exact Reports_LogErrorP _ s
  · exact Reports_LogErrorP _ (getNextToken s)
  · have h := ParseProtoArgs_stderr fuel [] (getNextToken s)
    revert h
    cases ParseProtoArgs fuel [] (getNextToken s) with
    | none => intro _; trivial
    | some r =>
      intro h
      have h2 : r.2.stderr = s.stderr := h r rfl
      obtain ⟨names, s2⟩ := r
      simp only at h2 ⊢
      split_ifs
      · exact Reports_of_stderr_eq h2 (Reports_LogErrorP _ s2)
      · exact h2

/-- Claim C9: only the innermost detection point reports. For every state and
every fuel, each of the entry points `ParsePrimary`, `ParseExpression`,
`ParsePrototype`, `ParseDefinition`, `ParseExtern` and `ParseTopLevelExpr`
that returns null has appended exactly one `Error: ...` entry to `stderr`
during the call, and each that returns a node has appended none. -/
theorem only_innermost_detection_reports (fuel : Nat) (s : PState) :
    Reports s.stderr (ParsePrimary fuel s) ∧
    Reports s.stderr (ParseExpression fuel s) ∧
    Reports s.stderr (ParsePrototype fuel s) ∧
    Reports s.stderr (ParseDefinition fuel s) ∧
    Reports s.stderr (ParseExtern fuel s) ∧
    Reports s.stderr (ParseTopLevelExpr fuel s) := by
  have hExpr : ∀ s, Reports s.stderr (ParseExpression fuel s) := (parser_Reports fuel).2.2.2.2.2
  refine ⟨(parser_Reports fuel).2.2.2.1 s, hExpr s, Reports_ParsePrototype fuel s, ?_,
    Reports_ParsePrototype fuel (getNextToken s), ?_⟩
  · unfold ParseDefinition
    dsimp only
    have h := Reports_ParsePrototype fuel (getNextToken s)
    rw [getNextToken_stderr] at h
    revert h
    cases ParsePrototype fuel (getNextToken s) with
    | none => intro _; trivial
    | some r =>
      obtain ⟨o, s2⟩ := r
      cases o with
      | none => exact fun h => h
      | some Proto =>
        intro h
        have h2 : s2.stderr = s.stderr := h
        have h3 := hExpr s2
        rw [h2] at h3
        revert h3
        simp only
        cases ParseExpression fuel s2 with
        | none => intro _; trivial
        | some r3 =>
          obtain ⟨o3, s3⟩ := r3
          cases o3 with
          | none => exact fun h => h
          | some E => exact fun h => h
  · unfold ParseTopLevelExpr
    have h := hExpr s
    revert h
    cases ParseExpression fuel s with
    | none => intro _; trivial
    | some r =>
      obtain ⟨o, s1⟩ := r
      cases o with
      | none => exact fun h => h
      | some E => exact fun h => h

/-- Instances of claim C9: on the input `foo(1` the call of `ParseExpression`
returns null and has appended exactly one `Error: ...` entry after the prompt;
on the input `def add(a b) a+b` the call of `ParseDefinition` returns a node
and `stderr` still holds only the prompt. -/
theorem only_innermost_detection_reports_witness :
    (∃ s1, ParseExpression 7 (mainInit (bytes "foo(1")) = some (none, s1) ∧
      ∃ msg : String, s1.stderr = ["ready> "] ++ ["Error: " ++ msg ++ "\n"]) ∧
    (∃ F s1, ParseDefinition 7 (mainInit (bytes "def add(a b) a+b")) = some (some F, s1) ∧
      s1.stderr = ["ready> "]) :=
  ⟨⟨_, rfl, (only_innermost_detection_reports 7 (mainInit (bytes "foo(1"))).2.1⟩,
   ⟨_, _, rfl, (only_innermost_detection_reports 7 (mainInit (bytes "def add(a b) a+b"))).2.2.2.1⟩⟩

/-! ## Identifiers and keywords -/

theorem skipSpace_nonspace (c : Int) (inp : List Nat) (h : isspace c = false) :
    skipSpace c inp = (c, inp) := by
  cases inp <;> simp [skipSpace, h]

theorem skipSpace_spaces (pre : List Nat) :
    ∀ (w : Int) (x : Nat) (tl : List Nat), isspace w = true →
      (∀ b ∈ pre, isspace (byte b) = true) →
      isspace (byte x) = false →
      skipSpace w (pre ++ x :: tl) = (byte x, tl) := by
  induction pre with
  | nil =>
    intro w x tl hw _ hx
    simp [skipSpace, hw, skipSpace_nonspace _ tl hx]
  | cons p pre ih =>
    intro w x tl hw hpre hx
    simp only [List.cons_append, skipSpace, hw, if_true]
    exact ih _ x tl (hpre p (List.mem_cons_self _ _))
      (fun b hb => hpre b (List.mem_cons_of_mem _ hb)) hx

theorem toChar_alnum (c : Char) (h : isalnum (chr c) = true) :
    byte c.toNat = chr c ∧ toChar (chr c) = c := by
  have hlt : c.toNat < 256 := by
    simp only [isalnum, isalpha, isdigit, chr, Bool.or_eq_true, Bool.and_eq_true,
      decide_eq_true_eq] at h
    omega
  refine ⟨?_, ?_⟩
  · simp only [byte, chr, Nat.mod_eq_of_lt hlt]
  · simp [toChar, chr]

theorem readIdent_lexeme (cs : List Char) :
    ∀ (acc : String) (rest : List Nat), (∀ c ∈ cs, isalnum (chr c) = true) →
      (∀ r, rest.head? = some r → isalnum (byte r) = false) →
      readIdent acc (cs.map Char.toNat ++ rest) =
        (String.mk (acc.data ++ cs), (getchar rest).1, (getchar rest).2) := by
  induction cs with
  | nil =>
    intro acc rest _ hrest
    cases rest with
    | nil => simp [readIdent, getchar]
    | cons r tl => simp [readIdent, getchar, hrest r rfl]
  | cons c cs ih =>
    intro acc rest hcs hrest
    obtain ⟨h1, h2⟩ := toChar_alnum c (hcs c (List.mem_cons_self _ _))
    have hc := hcs c (List.mem_cons_self _ _)
    rw [List.map_cons, List.cons_append, readIdent, h1, if_pos hc, h2,
      ih _ rest (fun b hb => hcs b (List.mem_cons_of_mem _ hb)) hrest]
    simp [String.push]

theorem isspace_false_of_isalpha (c : Int) (h : isalpha c = true) : isspace c = false := by
  simp only [isalpha, Bool.or_eq_true, Bool.and_eq_true, decide_eq_true_eq] at h
  simp only [isspace, Bool.or_eq_false_iff, Bool.and_eq_false_iff, beq_eq_false_iff_ne,
    decide_eq_false_iff_not]
  omega

theorem skipSpace_to_lexeme (lx : LexState) (pre : List Nat) (c0 : Char) (tl : List Nat)
    (hpend : lx.pendingIs (pre ++ c0.toNat :: tl))
    (hpre : ∀ b ∈ pre, isspace (byte b) = true)
    (h0 : isalpha (chr c0) = true) :
    skipSpace lx.LastChar lx.input = (chr c0, tl) := by
  obtain ⟨hb, -⟩ := toChar_alnum c0 (by simp [isalnum, h0])
  have hns : isspace (byte c0.toNat) = false := by
    rw [hb]; exact isspace_false_of_isalpha _ h0
  obtain ⟨b, rest, htext, hlast, hinp⟩ := hpend
  cases pre with
  | nil =>
    simp only [List.nil_append, List.cons.injEq] at htext
    obtain ⟨rfl, rfl⟩ := htext
    rw [hlast, hinp, skipSpace_nonspace _ _ hns, hb]
  | cons p pre =>
    simp only [List.cons_append, List.cons.injEq] at htext
    obtain ⟨rfl, rfl⟩ := htext
    rw [hlast, hinp, skipSpace_spaces pre _ _ _ (hpre _ (List.mem_cons_self _ _))
      (fun b hb => hpre b (List.mem_cons_of_mem _ hb)) hns, hb]

/-- Claim C10: let the text still to be processed be whitespace, then a lexeme
made of an ASCII letter `c0` followed by ASCII letters and digits `cs`, then
either nothing or a byte that is not alphanumeric. Then `gettok` returns
`tok_def` if the lexeme is `def`, `tok_extern` if it is `extern` and
`tok_identifier` otherwise, and leaves exactly the lexeme in the identifier
slot; the comparison is that of the strings, so it is case-sensitive. -/
theorem gettok_identifier_or_keyword (lx : LexState) (pre : List Nat) (c0 : Char)
    (cs : List Char) (rest : List Nat)
    (hpend : lx.pendingIs (pre ++ (c0 :: cs).map Char.toNat ++ rest))
    (hpre : ∀ b ∈ pre, isspace (byte b) = true)
    (h0 : isalpha (chr c0) = true)
    (hcs : ∀ c ∈ cs, isalnum (chr c) = true)
    (hrest : ∀ r, rest.head? = some r → isalnum (byte r) = false) :
    gettok lx =
      (if String.mk (c0 :: cs) = "def" then tok_def
        else if String.mk (c0 :: cs) = "extern" then tok_extern
        else tok_identifier,
       { lx with input := (getchar rest).2, LastChar := (getchar rest).1,
                 IndentifierStr := String.mk (c0 :: cs) }) := by
  have hskip := skipSpace_to_lexeme lx pre c0 (cs.map Char.toNat ++ rest)
    (by simpa [List.append_assoc] using hpend) hpre h0
  obtain ⟨-, hch⟩ := toChar_alnum c0 (by simp [isalnum, h0])
  have hread := readIdent_lexeme cs (String.singleton c0) rest hcs hrest
  have hsing : (String.singleton c0).data ++ cs = c0 :: cs := rfl
  rw [hsing] at hread
  unfold gettok
  rw [gettokAux]
  simp only [hskip, h0, if_true, hch, hread]
  split_ifs <;> rfl

/-- Instances of claim C10: `foo1` after two spaces and before `+` is an
identifier with text `foo1`; `def` is the keyword; `Def` and `EXTERN` are
identifiers. -/
theorem gettok_identifier_or_keyword_witness :
    (gettok (lexInit (bytes " foo1+2")) =
      (tok_identifier, { input := bytes "2", LastChar := chr '+', IndentifierStr := "foo1",
                         NumVal := Double.zero })) ∧
    (gettok (lexInit (bytes "def f")) =
      (tok_def, { input := bytes "f", LastChar := chr ' ', IndentifierStr := "def",
                  NumVal := Double.zero })) ∧
    (gettok (lexInit (bytes "Def")) =
      (tok_identifier, { input := [], LastChar := EOF, IndentifierStr := "Def",
                         NumVal := Double.zero })) ∧
    (gettok (lexInit (bytes "EXTERN")) =
      (tok_identifier, { input := [], LastChar := EOF, IndentifierStr := "EXTERN",
                         NumVal := Double.zero })) :=
  ⟨gettok_identifier_or_keyword (lexInit (bytes " foo1+2")) [32, 32] 'f' ['o', 'o', '1']
      (bytes "+2") ⟨32, _, rfl, rfl, rfl⟩ (by decide) (by decide) (by decide) (by decide),
   gettok_identifier_or_keyword (lexInit (bytes "def f")) [32] 'd' ['e', 'f']
      (bytes " f") ⟨32, _, rfl, rfl, rfl⟩ (by decide) (by decide) (by decide) (by decide),
   gettok_identifier_or_keyword (lexInit (bytes "Def")) [32] 'D' ['e', 'f']
      [] ⟨32, _, rfl, rfl, rfl⟩ (by decide) (by decide) (by decide) (by decide),
   gettok_identifier_or_keyword (lexInit (bytes "EXTERN")) [32] 'E' ['X', 'T', 'E', 'R', 'N']
      [] ⟨32, _, rfl, rfl, rfl⟩ (by decide) (by decide) (by decide) (by decide)⟩

/-! ## Number literals in the tokenizer -/

theorem skipSpace_to_byte (lx : LexState) (pre : List Nat) (b0 : Nat) (tl : List Nat)
    (hpend : lx.pendingIs (pre ++ b0 :: tl))
    (hpre : ∀ b ∈ pre, isspace (byte b) = true)
    (hns : isspace (byte b0) = false) :
    skipSpace lx.LastChar lx.input = (byte b0, tl) := by
  obtain ⟨b, rest, htext, hlast, hinp⟩ := hpend
  cases pre with
  | nil =>
    simp only [List.nil_append, List.cons.injEq] at htext
    obtain ⟨rfl, rfl⟩ := htext
    rw [hlast, hinp, skipSpace_nonspace _ _ hns]
  | cons p pre =>
    simp only [List.cons_append, List.cons.injEq] at htext
    obtain ⟨rfl, rfl⟩ := htext
    rw [hlast, hinp, skipSpace_spaces pre _ _ _ (hpre _ (List.mem_cons_self _ _))
      (fun b hb => hpre b (List.mem_cons_of_mem _ hb)) hns]

theorem skipSpace_of_spaces (w1 w2 : Int) (inp : List Nat) (h1 : isspace w1 = true)
    (h2 : isspace w2 = true) : skipSpace w1 inp = skipSpace w2 inp := by
  cases inp <;> simp [skipSpace, h1, h2]

theorem gettokAux_of_skipSpace (n : Nat) (s1 s2 : LexState)
    (hsk : skipSpace s1.LastChar s1.input = skipSpace s2.LastChar s2.input)
    (hid : s1.IndentifierStr = s2.IndentifierStr) (hnum : s1.NumVal = s2.NumVal) :
    gettokAux (n + 1) s1 = gettokAux (n + 1) s2 := by
  rw [gettokAux, gettokAux, hsk, hid, hnum]

theorem gettok_of_space (lx : LexState) (w : Int) (h1 : isspace lx.LastChar = true)
    (h2 : isspace w = true) : gettok { lx with LastChar := w } = gettok lx :=
  gettokAux_of_skipSpace _ _ _ (skipSpace_of_spaces _ _ _ h2 h1) rfl rfl

theorem skipComment_body (c : List Nat) (t : Nat) (r : List Nat)
    (hc : ∀ b ∈ c, byte b ≠ chr '\n' ∧ byte b ≠ chr '\r')
    (ht : byte t = chr '\n' ∨ byte t = chr '\r') :
    skipComment (c ++ t :: r) = (byte t, r) := by
  induction c with
  | nil =>
    rcases ht with h | h <;> simp [skipComment, h]
  | cons b c ih =>
    obtain ⟨h1, h2⟩ := hc b (List.mem_cons_self _ _)
    have hcond : (byte b != chr '\n' && byte b != chr '\r') = true := by
      simp [h1, h2]
    rw [List.cons_append, skipComment, if_pos hcond]
    exact ih (fun x hx => hc x (List.mem_cons_of_mem _ hx))

theorem skipComment_to_end (c : List Nat)
    (hc : ∀ b ∈ c, byte b ≠ chr '\n' ∧ byte b ≠ chr '\r') :
    skipComment c = (EOF, []) := by
  induction c with
  | nil => rfl
  | cons b c ih =>
    obtain ⟨h1, h2⟩ := hc b (List.mem_cons_self _ _)
    have hcond : (byte b != chr '\n' && byte b != chr '\r') = true := by
      simp [h1, h2]
    rw [skipComment, if_pos hcond]
    exact ih (fun x hx => hc x (List.mem_cons_of_mem _ hx))

/-- A comment that ends at a line feed or a carriage return is skipped:
`gettok` continues as if only the terminator, a whitespace character, and the
text after it were left to process. -/
theorem gettok_skips_comment (lx : LexState) (pre c : List Nat) (t : Nat) (r : List Nat)
    (hpend : lx.pendingIs (pre ++ '#'.toNat :: (c ++ t :: r)))
    (hpre : ∀ b ∈ pre, isspace (byte b) = true)
    (hc : ∀ b ∈ c, byte b ≠ chr '\n' ∧ byte b ≠ chr '\r')
    (ht : byte t = chr '\n' ∨ byte t = chr '\r') :
    gettok lx = gettok { lx with LastChar := chr ' ', input := r } := by
  have hskip := skipSpace_to_byte lx pre '#'.toNat (c ++ t :: r) hpend hpre (by decide)
  have hlen : r.length < lx.input.length := by
    obtain ⟨b, tl, htext, -, hinp⟩ := hpend
    have := congrArg List.length htext
    simp only [List.length_append, List.length_cons] at this
    rw [hinp]
    omega
  have hne : (byte t != EOF) = true := by
    rcases ht with h | h <;> rw [h] <;> decide
  have hsp : isspace (byte t) = true := by
    rcases ht with h | h <;> rw [h] <;> decide
  have h1 : gettok lx = gettokAux lx.input.length { lx with input := r, LastChar := byte t } := by
    unfold gettok
    rw [gettokAux]
    simp only [hskip, skipComment_body c t r hc ht, hne, if_true]
    rfl
  rw [h1, gettokAux_eq_gettok _ _ hlen]
  exact gettok_of_space { lx with input := r, LastChar := chr ' ' } (byte t) rfl hsp

/-- A comment that runs to the end of the input gives the end-of-input token. -/
theorem gettok_comment_to_end (lx : LexState) (pre c : List Nat)
    (hpend : lx.pendingIs (pre ++ '#'.toNat :: c))
    (hpre : ∀ b ∈ pre, isspace (byte b) = true)
    (hc : ∀ b ∈ c, byte b ≠ chr '\n' ∧ byte b ≠ chr '\r') :
    gettok lx = (tok_eof, { lx with LastChar := EOF, input := [] }) := by
  have hskip := skipSpace_to_byte lx pre '#'.toNat c hpend hpre (by decide)
  unfold gettok
  rw [gettokAux]
  simp only [hskip, skipComment_to_end c hc]
  rfl

theorem tokenSeq_congr (k : Nat) (lx1 lx2 : LexState) (h : gettok lx1 = gettok lx2) :
    tokenSeq k lx1 = tokenSeq k lx2 := by
  cases k with
  | zero => rfl
  | succ k => simp only [tokenSeq, h]

/-- Claim C13: comment lines are fully elided. For every comment body `c`
without a line terminator and every remaining input `r`, the tokens (with their
payloads) that repeated calls of `gettok` produce on `#`, `c`, a line feed and
`r`, starting from the initial tokenizer state, are those produced on `r`
alone. -/
theorem comment_line_elided (c r : List Nat) (k : Nat)
    (hc : ∀ b ∈ c, byte b ≠ chr '\n' ∧ byte b ≠ chr '\r') :
    tokenSeq k (lexInit ('#'.toNat :: (c ++ '\n'.toNat :: r))) = tokenSeq k (lexInit r) :=
  tokenSeq_congr k _ _
    (gettok_skips_comment (lexInit ('#'.toNat :: (c ++ '\n'.toNat :: r))) [32] c '\n'.toNat r
      ⟨32, _, rfl, rfl, rfl⟩ (by decide) hc (Or.inl (by decide)))

/-- Instance of claim C13: `# comment`, a line feed and `42` tokenize like `42`. -/
theorem comment_line_elided_witness :
    tokenSeq 3 (lexInit (bytes "# comment\n42")) = tokenSeq 3 (lexInit (bytes "42")) :=
  comment_line_elided (bytes " comment") (bytes "42") 3 (by decide)

/-- Claim C20 fails on the input `#a`, carriage return, `b`, line feed, `42`:
the comment ends at the carriage return, so the first token is the identifier
`b`, whereas `42` alone starts with a number. -/
theorem comment_ends_at_carriage_return :
    tokenSeq 2 (lexInit (bytes "#a\rb\n42")) =
      [(tok_identifier, "b", Double.zero), (tok_number, "b", { mant := 42, scale := 0 })] ∧
    tokenSeq 2 (lexInit (bytes "42")) =
      [(tok_number, "", { mant := 42, scale := 0 }), (tok_eof, "", { mant := 42, scale := 0 })] ∧
    tokenSeq 2 (lexInit (bytes "#a\rb\n42")) ≠ tokenSeq 2 (lexInit (bytes "42")) := by
  refine ⟨by decide, by decide, by decide⟩

/-- Claim C20 as amended: when the next character to process is `#`, `gettok`
discards every character up to the next line feed, carriage return or end of
input and only then produces the next token. For a comment body `c` holding
neither a line feed nor a carriage return: if a terminator `t` (line feed or
carriage return) and a remaining input `r` follow, tokenizing gives what
tokenizing `r` gives; if the input ends with the comment, the token is
`tok_eof`. -/
theorem comment_skipped_to_line_end (lx : LexState) (pre c : List Nat)
    (hpre : ∀ b ∈ pre, isspace (byte b) = true)
    (hc : ∀ b ∈ c, byte b ≠ chr '\n' ∧ byte b ≠ chr '\r') :
    (∀ (t : Nat) (r : List Nat), (byte t = chr '\n' ∨ byte t = chr '\r') →
      lx.pendingIs (pre ++ '#'.toNat :: (c ++ t :: r)) →
      gettok lx = gettok { lx with LastChar := chr ' ', input := r } ∧
      ∀ k, tokenSeq k lx = tokenSeq k { lx with LastChar := chr ' ', input := r }) ∧
    (lx.pendingIs (pre ++ '#'.toNat :: c) →
      gettok lx = (tok_eof, { lx with LastChar := EOF, input := [] })) := by
  refine ⟨?_, ?_⟩
  · intro t r ht hpend
    have h := gettok_skips_comment lx pre c t r hpend hpre hc ht
    exact ⟨h, fun k => tokenSeq_congr k _ _ h⟩
  · intro hpend
    exact gettok_comment_to_end lx pre c hpend hpre hc

/-- Instances of claim C20 as amended: a comment ended by a carriage return is
skipped like one ended by a line feed, and a comment that runs to the end of
the input gives `tok_eof`. -/
theorem comment_skipped_to_line_end_witness :
    gettok (lexInit (bytes "#a\r42")) = gettok (lexInit (bytes "42")) ∧
    gettok (lexInit (bytes "#a\n42")) = gettok (lexInit (bytes "42")) ∧
    gettok (lexInit (bytes "# to the end")) =
      (tok_eof, { input := [], LastChar := EOF, IndentifierStr := "", NumVal := Double.zero }) :=
  ⟨((comment_skipped_to_line_end (lexInit (bytes "#a\r42")) [32] (bytes "a")
      (by decide) (by decide)).1 '\r'.toNat (bytes "42") (by decide) ⟨32, _, rfl, rfl, rfl⟩).1,
   ((comment_skipped_to_line_end (lexInit (bytes "#a\n42")) [32] (bytes "a")
      (by decide) (by decide)).1 '\n'.toNat (bytes "42") (by decide) ⟨32, _, rfl, rfl, rfl⟩).1,
   (comment_skipped_to_line_end (lexInit (bytes "# to the end")) [32] (bytes " to the end")
      (by decide) (by decide)).2 ⟨32, _, rfl, rfl, rfl⟩⟩

/-! ## End of input -/

theorem gettokAux_eof_LastChar (n : Nat) :
    ∀ s : LexState, s.input.length < n → (gettokAux n s).1 = tok_eof →
      (gettokAux n s).2.LastChar = EOF := by
  induction n with
  | zero => intro s h; omega
  | succ n ih =>
    intro s hn
    rw [gettokAux]
    have hlen := skipSpace_length s.input s.LastChar
    rcases hsk : skipSpace s.LastChar s.input with ⟨c, inp⟩
    rw [hsk] at hlen
    simp only at hlen ⊢
    split_ifs with h1 h2 h3 h4 h5 h6 h7
    · intro h; simp at h
    · intro h; simp at h
    · intro h; simp at h
    · intro h; simp at h
    · have hcl := skipComment_length inp (by simpa using h6)
      exact ih _ (by simp only; omega)
    · intro _
      simpa using h6
    · intro _
      simpa using h7
    · intro h
      exact absurd h (by simpa using h7)

theorem gettok_at_eof (lx : LexState) (h : lx.LastChar = EOF) : gettok lx = (tok_eof, lx) := by
  have hsk : skipSpace lx.LastChar lx.input = (EOF, lx.input) := by
    rw [h]; exact skipSpace_nonspace _ _ (by decide)
  unfold gettok
  rw [gettokAux]
  simp only [hsk]
  obtain ⟨i, c, d, v⟩ := lx
  simp only at h
  subst h
  rfl

theorem lexAfter_at_eof (k : Nat) (lx : LexState) (h : lx.LastChar = EOF) :
    lexAfter k lx = lx := by
  induction k with
  | zero => rfl
  | succ k ih => rw [lexAfter, gettok_at_eof lx h]; exact ih

/-- Claim C14: end of input is idempotent. Once a call of `gettok` has
returned `tok_eof`, each later call returns `tok_eof` again and leaves the
whole tokenizer state, the unread input included, as that call left it. -/
theorem end_of_input_idempotent (lx : LexState) (k : Nat) (h : (gettok lx).1 = tok_eof) :
    lexAfter k (gettok lx).2 = (gettok lx).2 ∧
    gettok (lexAfter k (gettok lx).2) = (tok_eof, (gettok lx).2) := by
  have hlast : (gettok lx).2.LastChar = EOF :=
    gettokAux_eof_LastChar _ lx (Nat.lt_succ_self _) h
  rw [lexAfter_at_eof k _ hlast]
  exact ⟨rfl, gettok_at_eof _ hlast⟩

/-- Instance of claim C14 on the input `x`: the second call of `gettok` returns
`tok_eof`, and so does the call that follows three more calls, with the state
unchanged. -/
theorem end_of_input_idempotent_witness :
    lexAfter 3 (gettok (lexAfter 1 (lexInit (bytes "x")))).2 =
      (gettok (lexAfter 1 (lexInit (bytes "x")))).2 ∧
    gettok (lexAfter 3 (gettok (lexAfter 1 (lexInit (bytes "x")))).2) =
      (tok_eof, (gettok (lexAfter 1 (lexInit (bytes "x")))).2) :=
  end_of_input_idempotent (lexAfter 1 (lexInit (bytes "x"))) 3 (by decide)

/-! ## The precedence table -/

theorem precOf_mainTable (tok : Int) :
    precOf mainTable tok =
      if tok = chr '<' then 10
      else if tok = chr '+' ∨ tok = chr '-' then 20
      else if tok = chr '*' then 40
      else -1 := by
  by_cases h1 : tok = chr '<'
  · subst h1; decide
  by_cases h2 : tok = chr '+'
  · subst h2; decide
  by_cases h3 : tok = chr '-'
  · subst h3; decide
  by_cases h4 : tok = chr '*'
  · subst h4; decide
  have hfind : Table.find mainTable tok = none := by
    have hm : mainTable = [(chr '*', 40), (chr '+', 20), (chr '-', 20), (chr '<', 10)] := by
      decide
    rw [hm]
    simp [Table.find, Ne.symm h1, Ne.symm h2, Ne.symm h3, Ne.symm h4]
  rw [precOf_of_find_none tok hfind]
  simp [h1, h2, h3, h4]

theorem TableOK_afterLookups (earlier : List Int) :
    ∀ s : PState, TableOK s.BinopPrecedence → TableOK (afterLookups earlier s).BinopPrecedence := by
  induction earlier with
  | nil => intro s h; exact h
  | cons tok rest ih =>
    intro s h
    obtain ⟨t, ht, e⟩ := GetTokPrecedence_ok { s with CurTok := tok } h
    rw [afterLookups, e]
    exact ih _ ht

/-- Claim C15: with the table initialised as in `main`, and after any number
of earlier lookups, `GetTokPrecedence` returns 10 when the current token is
`<`, 20 when it is `+` or `-`, 40 when it is `*`, and -1 for every other
current token, whether another ASCII character, a code outside ASCII or one of
the negative tagged tokens. -/
theorem GetTokPrecedence_values (s : PState) (earlier : List Int) (tok : Int)
    (h : s.BinopPrecedence = mainTable) :
    (GetTokPrecedence { afterLookups earlier s with CurTok := tok }).1 =
      if tok = chr '<' then 10
      else if tok = chr '+' ∨ tok = chr '-' then 20
      else if tok = chr '*' then 40
      else -1 := by
  have hok := TableOK_afterLookups earlier s (h ▸ TableOK_mainTable)
  obtain ⟨t, -, e⟩ := GetTokPrecedence_ok { afterLookups earlier s with CurTok := tok } hok
  rw [e]
  exact precOf_mainTable tok

/-- Instances of claim C15, after lookups of `)`, `+` and `tok_eof`: the
current token `*` has precedence 40, and `<`, `-`, `)`, the code 200 and the
five tagged tokens have the precedences 10, 20 and -1 as claimed. -/
theorem GetTokPrecedence_values_witness :
    (GetTokPrecedence { afterLookups [chr ')', chr '+', tok_eof] (mainInit []) with
        CurTok := chr '*' }).1 = 40 ∧
    (GetTokPrecedence { afterLookups [chr ')', chr '+', tok_eof] (mainInit []) with
        CurTok := chr '<' }).1 = 10 ∧
    (GetTokPrecedence { afterLookups [chr ')', chr '+', tok_eof] (mainInit []) with
        CurTok := chr '-' }).1 = 20 ∧
    (GetTokPrecedence { afterLookups [chr ')', chr '+', tok_eof] (mainInit []) with
        CurTok := chr ')' }).1 = -1 ∧
    (GetTokPrecedence { afterLookups [chr ')', chr '+', tok_eof] (mainInit []) with
        CurTok := 200 }).1 = -1 ∧
    (∀ tok ∈ [tok_eof, tok_def, tok_extern, tok_identifier, tok_number],
      (GetTokPrecedence { afterLookups [chr ')', chr '+', tok_eof] (mainInit []) with
        CurTok := tok }).1 = -1) :=
  ⟨GetTokPrecedence_values (mainInit []) [chr ')', chr '+', tok_eof] (chr '*') rfl,
   GetTokPrecedence_values (mainInit []) [chr ')', chr '+', tok_eof] (chr '<') rfl,
   GetTokPrecedence_values (mainInit []) [chr ')', chr '+', tok_eof] (chr '-') rfl,
   GetTokPrecedence_values (mainInit []) [chr ')', chr '+', tok_eof] (chr ')') rfl,
   GetTokPrecedence_values (mainInit []) [chr ')', chr '+', tok_eof] 200 rfl,
   by
     intro tok htok
     have h := GetTokPrecedence_values (mainInit []) [chr ')', chr '+', tok_eof] tok rfl
     rw [h]
     simp only [List.mem_cons, List.mem_singleton, List.not_mem_nil, or_false] at htok
     rcases htok with rfl | rfl | rfl | rfl | rfl <;> decide⟩

/-- Claim C16 fails for the current token `)`: `main` left four keys in the
table, and one call of `GetTokPrecedence` leaves five, the new one being `)`
with the value 0. -/
theorem lookup_adds_absent_key :
    (mainInit (bytes ")")).CurTok = chr ')' ∧
    (mainInit (bytes ")")).BinopPrecedence = mainTable ∧
    mainTable = [(chr '*', 40), (chr '+', 20), (chr '-', 20), (chr '<', 10)] ∧
    (GetTokPrecedence (mainInit (bytes ")"))).2.BinopPrecedence =
      [(chr ')', 0), (chr '*', 40), (chr '+', 20), (chr '-', 20), (chr '<', 10)] ∧
    (GetTokPrecedence (mainInit (bytes ")"))).2.BinopPrecedence ≠ mainTable := by
  refine ⟨by decide, by decide, by decide, by decide, by decide⟩

theorem GetTokPrecedence_table (s : PState) :
    (GetTokPrecedence s).2.BinopPrecedence =
      if isascii s.CurTok = true ∧ Table.find s.BinopPrecedence s.CurTok = none then
        Table.set s.BinopPrecedence s.CurTok 0
      else s.BinopPrecedence := by
  unfold GetTokPrecedence Table.index
  by_cases ha : isascii s.CurTok = true
  · cases hf : Table.find s.BinopPrecedence s.CurTok with
    | none => simp [ha, hf]
    | some v => by_cases hv : v ≤ 0 <;> simp [ha, hf, hv]
  · simp [ha]

/-- Claim C16 as amended: a call of `GetTokPrecedence` changes nothing but the
table, keeps every entry of the table, and adds at most one entry, the current
token with the value 0, which happens exactly when that token is ASCII and not
yet a key; the precedence computed from the table for any token is the same
before and after. -/
theorem GetTokPrecedence_only_adds_zero_entry (s : PState) :
    (GetTokPrecedence s).2.lex = s.lex ∧
    (GetTokPrecedence s).2.CurTok = s.CurTok ∧
    (GetTokPrecedence s).2.stderr = s.stderr ∧
    ((GetTokPrecedence s).2.BinopPrecedence =
      if isascii s.CurTok = true ∧ Table.find s.BinopPrecedence s.CurTok = none then
        Table.set s.BinopPrecedence s.CurTok 0
      else s.BinopPrecedence) ∧
    (∀ k v, Table.find s.BinopPrecedence k = some v →
      Table.find (GetTokPrecedence s).2.BinopPrecedence k = some v) ∧
    (∀ k v, Table.find (GetTokPrecedence s).2.BinopPrecedence k = some v →
      Table.find s.BinopPrecedence k = some v ∨ (k = s.CurTok ∧ v = 0)) ∧
    (∀ tok, precOf (GetTokPrecedence s).2.BinopPrecedence tok = precOf s.BinopPrecedence tok) := by
  have e := GetTokPrecedence_eq s
  have htbl := GetTokPrecedence_table s
  refine ⟨by rw [e], by rw [e], by rw [e], htbl, ?_, ?_, ?_⟩
  · intro k v hk
    rw [htbl]
    split_ifs with hc
    · rw [Table.find_set]
      split_ifs with hkk
      · subst hkk
        rw [hc.2] at hk
        cases hk
      · exact hk
    · exact hk
  · intro k v hk
    rw [htbl] at hk
    split_ifs at hk with hc
    · rw [Table.find_set] at hk
      split_ifs at hk with hkk
      · right
        injection hk with hk
        exact ⟨hkk.symm, hk.symm⟩
      · left; exact hk
    · left; exact hk
  · intro tok
    rw [htbl]
    split_ifs with hc
    · have h := precOf_index s.BinopPrecedence s.CurTok tok
      unfold Table.index at h
      rw [hc.2] at h
      exact h
    · rfl

/-- Instance of claim C16 as amended, with `)` the current token: after the
call the entry of `+` is still 20, the only new key is `)` with the value 0,
and the precedence computed for `*` is still 40. -/
theorem GetTokPrecedence_only_adds_zero_entry_witness :
    Table.find (GetTokPrecedence (mainInit (bytes ")"))).2.BinopPrecedence (chr '+') = some 20 ∧
    (Table.find (mainInit (bytes ")")).BinopPrecedence (chr ')') = some 0 ∨
      (chr ')' = (mainInit (bytes ")")).CurTok ∧ (0 : Int) = 0)) ∧
    precOf (GetTokPrecedence (mainInit (bytes ")"))).2.BinopPrecedence (chr '*') =
      precOf (mainInit (bytes ")")).BinopPrecedence (chr '*') :=
  ⟨(GetTokPrecedence_only_adds_zero_entry (mainInit (bytes ")"))).2.2.2.2.1 (chr '+') 20
      (by decide),
   (GetTokPrecedence_only_adds_zero_entry (mainInit (bytes ")"))).2.2.2.2.2.1 (chr ')') 0
      (by decide),
   (GetTokPrecedence_only_adds_zero_entry (mainInit (bytes ")"))).2.2.2.2.2.2 (chr '*')⟩

/-! ## The reserved name of top-level expressions -/

theorem toNat_ofNat_byte (n : Nat) (h : n < 256) : (Char.ofNat n).toNat = n := by
  unfold Char.ofNat
  have hv : n.isValidChar := Or.inl (by omega)
  simp only [hv, dif_pos]
  simp [Char.ofNatAux, Char.toNat, UInt32.toNat]

theorem chr_toChar (x : Int) (h0 : 0 ≤ x) (h1 : x < 256) : chr (toChar x) = x := by
  unfold chr toChar
  rw [toNat_ofNat_byte x.toNat (by omega)]
  omega

theorem isalnum_range (x : Int) (h : isalnum x = true) : 0 ≤ x ∧ x < 256 := by
  simp only [isalnum, isalpha, isdigit, Bool.or_eq_true, Bool.and_eq_true,
    decide_eq_true_eq] at h
  omega

theorem byte_ge (b : Nat) : -1 ≤ byte b := by
  unfold byte
  omega

theorem getchar_ge (inp : List Nat) : -1 ≤ (getchar inp).1 := by
  cases inp with
  | nil => decide
  | cons b rest => exact byte_ge b

theorem skipSpace_ge (inp : List Nat) : ∀ c : Int, -1 ≤ c → -1 ≤ (skipSpace c inp).1 := by
  induction inp with
  | nil => intro c hc; simp only [skipSpace]; split_ifs <;> simp [hc]
  | cons b rest ih =>
    intro c hc
    simp only [skipSpace]
    split_ifs
    · exact ih _ (byte_ge b)
    · exact hc

theorem skipComment_ge (inp : List Nat) : -1 ≤ (skipComment inp).1 := by
  induction inp with
  | nil => decide
  | cons b rest ih =>
    simp only [skipComment]
    split_ifs
    · exact ih
    · exact byte_ge b

theorem readIdent_ge (inp : List Nat) : ∀ acc : String, -1 ≤ (readIdent acc inp).2.1 := by
  induction inp with
  | nil => intro acc; simp [readIdent]
  | cons b rest ih =>
    intro acc
    simp only [readIdent]
    split_ifs
    · exact ih _
    · exact byte_ge b

theorem readNumber_ge (inp : List Nat) : ∀ acc : String, -1 ≤ (readNumber acc inp).2.1 := by
  induction inp with
  | nil => intro acc; simp [readNumber]
  | cons b rest ih =>
    intro acc
    simp only [readNumber]
    split_ifs
    · exact ih _
    · exact byte_ge b

theorem readIdent_data (inp : List Nat) :
    ∀ acc : String, ∃ more, (readIdent acc inp).1.data = acc.data ++ more ∧
      ∀ c ∈ more, isalnum (chr c) = true := by
  induction inp with
  | nil => intro acc; exact ⟨[], by simp [readIdent], by simp⟩
  | cons b rest ih =>
    intro acc
    simp only [readIdent]
    split_ifs with hb
    · obtain ⟨more, h1, h2⟩ := ih (acc.push (toChar (byte b)))
      refine ⟨toChar (byte b) :: more, ?_, ?_⟩
      · rw [h1]; simp [String.push]
      · intro c hc
        rcases List.mem_cons.mp hc with h | h
        · obtain ⟨r0, r1⟩ := isalnum_range _ hb
          rw [h, chr_toChar _ r0 r1]
          exact hb
        · exact h2 c h
    · exact ⟨[], by simp, by simp⟩

theorem gettokAux_LastChar_ge (n : Nat) :
    ∀ s : LexState, -1 ≤ s.LastChar → -1 ≤ (gettokAux n s).2.LastChar := by
  induction n with
  | zero => intro s h; exact h
  | succ n ih =>
    intro s hs
    rw [gettokAux]
    have hc := skipSpace_ge s.input s.LastChar hs
    rcases hsk : skipSpace s.LastChar s.input with ⟨c, inp⟩
    rw [hsk] at hc
    simp only at hc ⊢
    split_ifs with h1 h2 h3 h4 h5 h6 h7
    · exact readIdent_ge inp _
    · exact readIdent_ge inp _
    · exact readIdent_ge inp _
    · exact readNumber_ge inp _
    · exact ih _ (skipComment_ge inp)
    · exact skipComment_ge inp
    · exact hc
    · exact getchar_ge inp

theorem lexAfter_LastChar_ge (k : Nat) :
    ∀ lx : LexState, -1 ≤ lx.LastChar → -1 ≤ (lexAfter k lx).LastChar := by
  induction k with
  | zero => intro lx h; exact h
  | succ k ih => intro lx h; exact ih _ (gettokAux_LastChar_ge _ lx h)

theorem gettokAux_identifier_text (n : Nat) :
    ∀ s : LexState, s.input.length < n → -1 ≤ s.LastChar →
      (gettokAux n s).1 = tok_identifier → IsIdentText (gettokAux n s).2.IndentifierStr := by
  induction n with
  | zero => intro s h; omega
  | succ n ih =>
    intro s hn hs
    rw [gettokAux]
    have hlen := skipSpace_length s.input s.LastChar
    have hc := skipSpace_ge s.input s.LastChar hs
    rcases hsk : skipSpace s.LastChar s.input with ⟨c, inp⟩
    rw [hsk] at hlen hc
    simp only at hlen hc ⊢
    have hident : isalpha c = true →
        IsIdentText (readIdent (String.singleton (toChar c)) inp).1 := by
      intro h1
      obtain ⟨more, hm1, hm2⟩ := readIdent_data inp (String.singleton (toChar c))
      have hr : 0 ≤ c ∧ c < 256 := isalnum_range c (by simp [isalnum, h1])
      refine ⟨toChar c, more, hm1, ?_, hm2⟩
      rw [chr_toChar c hr.1 hr.2]
      exact h1
    split_ifs with h1 h2 h3 h4 h5 h6 h7
    · intro h; simp at h
    · intro h; simp at h
    · intro _; exact hident h1
    · intro h; simp at h
    · have hcl := skipComment_length inp (by simpa using h6)
      exact ih _ (by simp only; omega) (skipComment_ge inp)
    · intro h; simp at h
    · intro h; simp at h
    · intro h
      have h8 : c = -4 := h
      omega

theorem not_IsIdentText_anon : ¬ IsIdentText "__anon_expr" := by
  rintro ⟨c0, cs, hdata, h0, -⟩
  have : c0 = '_' := by
    have h : ("__anon_expr" : String).data.head? = some '_' := by decide
    rw [hdata] at h
    simpa using h
  subst this
  exact absurd h0 (by decide)

theorem ParsePrototype_name (fuel : Nat) (s : PState) (P : PrototypeAST) (s1 : PState)
    (h : ParsePrototype fuel s = some (some P, s1)) :
    s.CurTok = tok_identifier ∧ P.Name = s.lex.IndentifierStr := by
  unfold ParsePrototype at h
  by_cases hc : s.CurTok = tok_identifier
  · refine ⟨hc, ?_⟩
    have hne : (s.CurTok != tok_identifier) = false := by simp [hc]
    simp only [hne, Bool.false_eq_true, if_false] at h
    split_ifs at h with h1
    · simp [LogErrorP] at h
    · cases hargs : ParseProtoArgs fuel [] (getNextToken s) with
      | none => rw [hargs] at h; simp at h
      | some r =>
        rw [hargs] at h
        simp only at h
        split_ifs at h with h2
        · simp [LogErrorP] at h
        · injection h with h
          injection h with h _
          injection h with h
          rw [← h]
  · have hne : (s.CurTok != tok_identifier) = true := by simp [hc]
    simp [hne, LogErrorP] at h

/-- Claim C17: `ParseTopLevelExpr` wraps every successfully parsed expression
in a function whose prototype has the name `__anon_expr` and no parameters,
and no user-chosen name collides with that name: in every tokenizer state
reached from the initial one, an identifier token carries a letter followed by
letters and digits only, hence never `__anon_expr`, and so no prototype that
`ParsePrototype` builds from the next token (as `ParseDefinition` and
`ParseExtern` make it do) has that name. -/
theorem anonymous_name_reserved (inp : List Nat) (k fuel : Nat) (s : PState)
    (hs : s.lex = lexAfter k (lexInit inp)) :
    (∀ F s1, ParseTopLevelExpr fuel s = some (some F, s1) →
      F.Proto = { Name := "__anon_expr", Args := [] } ∧
      ParseExpression fuel s = some (some F.Body, s1)) ∧
    ((gettok s.lex).1 = tok_identifier →
      IsIdentText (gettok s.lex).2.IndentifierStr ∧
      (gettok s.lex).2.IndentifierStr ≠ "__anon_expr") ∧
    (∀ P s1, ParsePrototype fuel (getNextToken s) = some (some P, s1) →
      P.Name ≠ "__anon_expr") ∧
    (∀ F s1, ParseDefinition fuel s = some (some F, s1) → F.Proto.Name ≠ "__anon_expr") ∧
    (∀ P s1, ParseExtern fuel s = some (some P, s1) → P.Name ≠ "__anon_expr") := by
  have hge : -1 ≤ s.lex.LastChar := by
    rw [hs]; exact lexAfter_LastChar_ge k _ (show (-1 : Int) ≤ chr ' ' by decide)
  have hid : (gettok s.lex).1 = tok_identifier →
      IsIdentText (gettok s.lex).2.IndentifierStr ∧
      (gettok s.lex).2.IndentifierStr ≠ "__anon_expr" := by
    intro h
    have h1 := gettokAux_identifier_text _ s.lex (Nat.lt_succ_self _) hge h
    exact ⟨h1, fun e => not_IsIdentText_anon (e ▸ h1)⟩
  have hproto : ∀ P s1, ParsePrototype fuel (getNextToken s) = some (some P, s1) →
      P.Name ≠ "__anon_expr" := by
    intro P s1 h
    obtain ⟨h1, h2⟩ := ParsePrototype_name fuel _ P s1 h
    rw [h2]
    exact (hid h1).2
  refine ⟨?_, hid, hproto, ?_, ?_⟩
  · intro F s1 h
    unfold ParseTopLevelExpr at h
    cases he : ParseExpression fuel s with
    | none => rw [he] at h; simp at h
    | some r =>
      obtain ⟨o, s2⟩ := r
      rw [he] at h
      cases o with
      | none => simp at h
      | some E =>
        simp only [Option.some.injEq, Prod.mk.injEq] at h
        obtain ⟨h1, h2⟩ := h
        subst h1 h2
        exact ⟨rfl, rfl⟩
  · intro F s1 h
    unfold ParseDefinition at h
    dsimp only at h
    cases hp : ParsePrototype fuel (getNextToken s) with
    | none => rw [hp] at h; simp at h
    | some r =>
      obtain ⟨o, s2⟩ := r
      rw [hp] at h
      cases o with
      | none => simp at h
      | some Proto =>
        simp only at h
        cases he : ParseExpression fuel s2 with
        | none => rw [he] at h; simp at h
        | some r3 =>
          obtain ⟨o3, s3⟩ := r3
          rw [he] at h
          cases o3 with
          | none => simp at h
          | some E =>
            simp only [Option.some.injEq, Prod.mk.injEq] at h
            obtain ⟨h1, -⟩ := h
            subst h1
            exact hproto Proto s2 hp
  · intro P s1 h
    exact hproto P s1 h

/-- Instances of claim C17: the expression `1+2` is wrapped under the name
`__anon_expr` with no parameters, and the name read from `def f(x) 1` is not
`__anon_expr`. -/
theorem anonymous_name_reserved_witness :
    (∃ F s1, ParseTopLevelExpr 5 (mainInit (bytes "1+2")) = some (some F, s1) ∧
      F.Proto = { Name := "__anon_expr", Args := [] }) ∧
    (gettok (mainInit (bytes "def f(x) 1")).lex).2.IndentifierStr ≠ "__anon_expr" :=
  ⟨⟨_, _, rfl, ((anonymous_name_reserved (bytes "1+2") 1 5 (mainInit (bytes "1+2")) rfl).1
      _ _ rfl).1⟩,
   ((anonymous_name_reserved (bytes "def f(x) 1") 1 5 (mainInit (bytes "def f(x) 1")) rfl).2.1
      (by decide)).2⟩

/-! ## Precedence climbing on chains of any length -/

theorem inorder_of_not_Binary (e : ExprAST) (h : ∀ Op LHS RHS, e ≠ ExprAST.Binary Op LHS RHS) :
    inorder e = [Item.leaf e] := by
  cases e with
  | Binary Op LHS RHS => exact absurd rfl (h Op LHS RHS)
  | Number Val => rfl
  | Variable Name => rfl
  | Call Callee Args => rfl

theorem inorder_ne_nil (e : ExprAST) : inorder e ≠ [] := by
  cases e <;> simp [inorder]

theorem ClimbOK_ops_ge (T : ExprAST) (h : ClimbOK T) :
    ∀ bound : Int, (∀ Op LHS RHS, T = ExprAST.Binary Op LHS RHS → bound ≤ opPrec Op) →
      ∀ c, Item.op c ∈ inorder T → bound ≤ opPrec c := by
  induction h with
  | leaf e hne =>
    intro bound _ c hc
    rw [inorder_of_not_Binary e hne] at hc
    simp at hc
  | node Op LHS RHS hl hr hleft hright ihl ihr =>
    intro bound hb c hc
    have hroot : bound ≤ opPrec Op := hb Op LHS RHS rfl
    rw [inorder] at hc
    rcases List.mem_append.mp hc with h1 | h1
    · exact le_trans hroot (ihl (opPrec Op) hleft c h1)
    · rcases List.mem_cons.mp h1 with h2 | h2
      · injection h2 with h2
        rw [h2]; exact hroot
      · have := ihr (opPrec Op + 1) (fun Op1 L1 R1 e => by have := hright Op1 L1 R1 e; omega) c h2
        omega

theorem ClimbOK_unique (T1 : ExprAST) (h1 : ClimbOK T1) :
    ∀ T2, ClimbOK T2 → inorder T1 = inorder T2 → T1 = T2 := by
  induction h1 with
  | leaf e hne =>
    intro T2 h2 hio
    rw [inorder_of_not_Binary e hne] at hio
    cases h2 with
    | leaf _ hne2 =>
      rw [inorder_of_not_Binary T2 hne2] at hio
      simpa using hio
    | node Op LHS RHS hl hr hleft hright =>
      rw [inorder] at hio
      have hlen := congrArg List.length hio
      have := List.length_pos.mpr (inorder_ne_nil LHS)
      simp only [List.length_singleton, List.length_append, List.length_cons,
        List.length_nil] at hlen
      omega
  | node Op LHS RHS hl hr hleft hright ihl ihr =>
    intro T2 h2 hio
    cases h2 with
    | leaf _ hne2 =>
      rw [inorder_of_not_Binary T2 hne2, inorder] at hio
      have hlen := congrArg List.length hio
      have := List.length_pos.mpr (inorder_ne_nil LHS)
      simp only [List.length_singleton, List.length_append, List.length_cons,
        List.length_nil] at hlen
      omega
    | node Op2 L2 R2 hl2 hr2 hleft2 hright2 =>
      have hA := ClimbOK_ops_ge LHS hl (opPrec Op) hleft
      have hB := ClimbOK_ops_ge RHS hr (opPrec Op + 1)
        (fun Op1 L1 R1 e => by have := hright Op1 L1 R1 e; omega)
      have hA2 := ClimbOK_ops_ge L2 hl2 (opPrec Op2) hleft2
      have hB2 := ClimbOK_ops_ge R2 hr2 (opPrec Op2 + 1)
        (fun Op1 L1 R1 e => by have := hright2 Op1 L1 R1 e; omega)
      rw [inorder, inorder] at hio
      rcases List.append_eq_append_iff.mp hio with ⟨a, ha1, ha2⟩ | ⟨a, ha1, ha2⟩
      · -- the left part of the second tree extends that of the first
        cases a with
        | nil =>
          simp only [List.append_nil, List.nil_append, List.cons.injEq, Item.op.injEq] at ha1 ha2
          obtain ⟨hop, hR⟩ := ha2
          rw [ihl L2 hl2 ha1.symm, ihr R2 hr2 hR, hop]
        | cons x a =>
          simp only [List.cons_append, List.cons.injEq] at ha2
          obtain ⟨hx, hR⟩ := ha2
          subst hx
          have e1 : opPrec Op2 ≤ opPrec Op := hA2 Op (by rw [ha1]; simp)
          have e2 : opPrec Op + 1 ≤ opPrec Op2 := hB Op2 (by rw [hR]; simp)
          omega
      · cases a with
        | nil =>
          simp only [List.append_nil, List.nil_append, List.cons.injEq, Item.op.injEq] at ha1 ha2
          obtain ⟨hop, hR⟩ := ha2
          rw [ihl L2 hl2 ha1, ihr R2 hr2 hR.symm, hop]
        | cons x a =>
          simp only [List.cons_append, List.cons.injEq] at ha2
          obtain ⟨hx, hR⟩ := ha2
          subst hx
          have e1 : opPrec Op ≤ opPrec Op2 := hA Op2 (by rw [ha1]; simp)
          have e2 : opPrec Op2 + 1 ≤ opPrec Op := hB2 Op (by rw [hR]; simp)
          omega

theorem table_op_range (o p : Int) (h : Table.find mainTable o = some p) :
    0 ≤ o ∧ o < 256 := by
  have hm : mainTable = [(42, 40), (43, 20), (45, 20), (60, 10)] := by decide
  rw [hm] at h
  simp only [Table.find] at h
  split_ifs at h with h1 h2 h3 h4
  all_goals (subst_vars; decide)

theorem opPrec_toChar (o p : Int) (h : Table.find mainTable o = some p) :
    opPrec (toChar o) = precOf mainTable o := by
  obtain ⟨h0, h1⟩ := table_op_range o p h
  unfold opPrec
  rw [chr_toChar o h0 h1]

theorem inorder_operand (a : Operand) : inorder a.node = [Item.leaf a.node] := by
  cases a <;> rfl

theorem ClimbOK_operand (a : Operand) : ClimbOK a.node :=
  ClimbOK.leaf _ (fun Op L R => a.node_ne_Binary Op L R)

theorem chainTail_append (a b : List (Int × Operand)) :
    chainTail (a ++ b) = chainTail a ++ chainTail b := by
  induction a with
  | nil => rfl
  | cons x a ih =>
    obtain ⟨o, q⟩ := x
    simp [chainTail, ih]

theorem ParseBinOpRHS_chain (n : Nat) :
    ∀ (chain : List (Int × Operand)) (E : Int) (LHS : ExprAST) (s : PState) (stop : Int)
      (lEnd : LexState),
      chain.length + 2 ≤ n → 0 ≤ E →
      TableOK s.BinopPrecedence →
      (∀ x ∈ chain, ∃ p, Table.find mainTable x.1 = some p) →
      Table.find mainTable stop = none →
      ReadsChain s.CurTok s.lex chain stop lEnd →
      ClimbOK LHS →
      (∀ Op L R, LHS = ExprAST.Binary Op L R → precOf mainTable s.CurTok ≤ opPrec Op) →
      ∃ T s1 used left,
        ParseBinOpRHS n E LHS s = some (some T, s1) ∧
        chain = used ++ left ∧
        ReadsChain s1.CurTok s1.lex left stop lEnd ∧
        TableOK s1.BinopPrecedence ∧
        precOf mainTable s1.CurTok < E ∧
        inorder T = inorder LHS ++ chainTail used ∧
        ClimbOK T ∧
        (T = LHS ∨ ∃ Op L R, T = ExprAST.Binary Op L R ∧ E ≤ opPrec Op) := by
  induction n with
  | zero => intro chain E LHS s stop lEnd hn; omega
  | succ n ih =>
    intro chain E LHS s stop lEnd hn hE htbl hops hstop hread hL hroot
    have hq3 := precOf_of_find_none stop hstop
    -- the loop ends here: the current token binds less tightly than `E`
    have hstopcase : precOf mainTable s.CurTok < E →
        ∃ T s1 used left,
          ParseBinOpRHS (n + 1) E LHS s = some (some T, s1) ∧
          chain = used ++ left ∧
          ReadsChain s1.CurTok s1.lex left stop lEnd ∧
          TableOK s1.BinopPrecedence ∧
          precOf mainTable s1.CurTok < E ∧
          inorder T = inorder LHS ++ chainTail used ∧
          ClimbOK T ∧
          (T = LHS ∨ ∃ Op L R, T = ExprAST.Binary Op L R ∧ E ≤ opPrec Op) := by
      intro hlt
      obtain ⟨t, ht, e⟩ := ParseBinOpRHS_stop s E LHS n htbl hlt
      exact ⟨LHS, _, [], chain, e, rfl, hread, ht, hlt, by simp [chainTail], hL, Or.inl rfl⟩
    cases chain with
    | nil =>
      obtain ⟨hcur, -⟩ := hread
      exact hstopcase (by rw [hcur, hq3]; omega)
    | cons x rest =>
      obtain ⟨o, b⟩ := x
      by_cases hlt : precOf mainTable s.CurTok < E
      · exact hstopcase hlt
      · obtain ⟨hcur, l1, l2, nxt, h1, hb, h2, he, hrest⟩ := hread
        obtain ⟨p, hp⟩ := hops (o, b) (List.mem_cons_self _ _)
        obtain ⟨hq, hpos, -⟩ := precOf_of_find_some o p hp
        have hopc : opPrec (toChar o) = p := by rw [opPrec_toChar o p hp, hq]
        have hopsrest : ∀ x ∈ rest, ∃ p, Table.find mainTable x.1 = some p :=
          fun x hx => hops x (List.mem_cons_of_mem _ hx)
        simp only [List.length_cons] at hn
        obtain ⟨m, rfl⟩ : ∃ m, n = m + 2 := ⟨n - 2, by omega⟩
        obtain ⟨t, ht, e⟩ := ParseBinOpRHS_step s E LHS b nxt l1 l2 m htbl hlt h1 hb h2 he
        rw [hcur] at e hlt hroot
        rw [hq] at e hlt hroot
        by_cases hclimb : p < precOf mainTable nxt
        · -- the next operator binds tighter: it is folded into the right operand first
          obtain ⟨T1, s5, used1, left1, e1, hsplit1, hread1, htbl1, hlt1, hio1, hok1, hroot1⟩ :=
            ih rest (p + 1) b.node
              { lex := l2, CurTok := nxt, BinopPrecedence := t, stderr := s.stderr } stop lEnd
              (by omega) (by omega) ht hopsrest hstop hrest (ClimbOK_operand b)
              (fun Op L R hB => absurd hB (b.node_ne_Binary Op L R))
          have hnode : ClimbOK (ExprAST.Binary (toChar o) LHS T1) := by
            refine ClimbOK.node _ _ _ hL hok1 ?_ ?_
            · intro Op1 L1 R1 hB
              rw [hopc]; exact hroot Op1 L1 R1 hB
            · intro Op1 L1 R1 hB
              rw [hopc]
              rcases hroot1 with h | ⟨Op2, L2, R2, hT, hge⟩
              · exact absurd (h ▸ hB) (b.node_ne_Binary Op1 L1 R1)
              · rw [hT] at hB
                injection hB with hB1
                rw [← hB1]; omega
          have hlen1 : left1.length ≤ rest.length := by
            rw [hsplit1, List.length_append]; omega
          obtain ⟨T, s6, used2, left2, e2, hsplit2, hread2, htbl2, hlt2, hio2, hok2, hroot2⟩ :=
            ih left1 E (ExprAST.Binary (toChar o) LHS T1) s5 stop lEnd
              (by omega) hE htbl1 (fun x hx => hopsrest x (by rw [hsplit1]; simp [hx]))
              hstop hread1 hnode
              (fun Op L R hB => by
                injection hB with hB1
                rw [← hB1, hopc]; omega)
          refine ⟨T, s6, (o, b) :: (used1 ++ used2), left2, ?_, ?_, hread2, htbl2, hlt2, ?_, hok2, ?_⟩
          · rw [e, if_pos hclimb, e1]
            exact e2
          · rw [hsplit1, hsplit2]; simp
          · rw [hio2, inorder, hio1, inorder_operand]
            simp [chainTail, chainTail_append]
          · right
            rcases hroot2 with h | h
            · exact ⟨toChar o, LHS, T1, h, by rw [hopc]; omega⟩
            · exact h
        · -- the next token does not bind tighter: fold and go on
          have hnode : ClimbOK (ExprAST.Binary (toChar o) LHS b.node) := by
            refine ClimbOK.node _ _ _ hL (ClimbOK_operand b) ?_ ?_
            · intro Op1 L1 R1 hB
              rw [hopc]; exact hroot Op1 L1 R1 hB
            · intro Op1 L1 R1 hB
              exact absurd hB (b.node_ne_Binary Op1 L1 R1)
          obtain ⟨T, s6, used2, left2, e2, hsplit2, hread2, htbl2, hlt2, hio2, hok2, hroot2⟩ :=
            ih rest E (ExprAST.Binary (toChar o) LHS b.node)
              { lex := l2, CurTok := nxt, BinopPrecedence := t, stderr := s.stderr } stop lEnd
              (by omega) hE ht hopsrest hstop hrest hnode
              (fun Op L R hB => by
                injection hB with hB1
                rw [← hB1, hopc]; exact not_lt.mp hclimb)
          refine ⟨T, s6, (o, b) :: used2, left2, ?_, ?_, hread2, htbl2, hlt2, ?_, hok2, ?_⟩
          · rw [e, if_neg hclimb]
            exact e2
          · rw [hsplit2]; simp
          · rw [hio2, inorder, inorder_operand]
            simp [chainTail]
          · right
            rcases hroot2 with h | h
            · exact ⟨toChar o, LHS, b.node, h, by rw [hopc]; omega⟩
            · exact h

/-- Claim C19: precedence climbing is correct for operator chains of any
length. With the table of `main`, for single-token operands `p0 ... pn` (a
number token, or an identifier token that no `(` follows) and table operators
`o1 ... on`, `ParseExpression` on the tokens `p0 o1 p1 ... on pn` followed by a
token that is not a table operator succeeds, with that token left current, and
returns a tree whose in-order traversal is exactly `p0 o1 p1 ... on pn`, in
which every binary right child has strictly higher precedence than its parent
and every binary left child has precedence at least that of its parent; and
the tree is the only one with these three properties. -/
theorem precedence_climbing_correct (p0 : Operand) (rest : List (Int × Operand))
    (stop cur0 : Int) (s : PState) (l0 lEnd : LexState) (n : Nat)
    (htbl : s.BinopPrecedence = mainTable)
    (hops : ∀ x ∈ rest, ∃ p, Table.find mainTable x.1 = some p)
    (hstop : Table.find mainTable stop = none)
    (h0 : s.CurTok = p0.tok) (hp0 : p0.payload s.lex)
    (hfirst : gettok s.lex = (cur0, l0)) (he0 : p0.endsBefore cur0)
    (hchain : ReadsChain cur0 l0 rest stop lEnd)
    (hfuel : rest.length + 3 ≤ n) :
    ∃ T s1, ParseExpression n s = some (some T, s1) ∧ s1.CurTok = stop ∧ s1.lex = lEnd ∧
      inorder T = chainItems p0 rest ∧ ClimbOK T ∧
      ∀ T1, inorder T1 = chainItems p0 rest → ClimbOK T1 → T1 = T := by
  obtain ⟨m, rfl⟩ : ∃ m, n = m + 3 := ⟨n - 3, by omega⟩
  have hprim : ParsePrimary (m + 2) s = _ := ParsePrimary_operand p0 s cur0 l0 m h0 hp0 hfirst he0
  obtain ⟨T, s1, used, left, e, hsplit, hread, -, hlt, hio, hok, -⟩ :=
    ParseBinOpRHS_chain (m + 2) rest 0 p0.node { s with lex := l0, CurTok := cur0 } stop lEnd
      (by omega) (le_refl _) (htbl ▸ TableOK_mainTable) hops hstop hchain (ClimbOK_operand p0)
      (fun Op L R hB => absurd hB (p0.node_ne_Binary Op L R))
  have hleft : left = [] := by
    cases left with
    | nil => rfl
    | cons x left =>
      obtain ⟨o, b⟩ := x
      obtain ⟨hcur, -⟩ := hread
      obtain ⟨p, hp⟩ := hops (o, b) (by rw [hsplit]; simp)
      obtain ⟨hq, hpos, -⟩ := precOf_of_find_some o p hp
      rw [hcur, hq] at hlt
      omega
  subst hleft
  rw [List.append_nil] at hsplit
  subst hsplit
  obtain ⟨hcur, hlex⟩ := hread
  have hio2 : inorder T = chainItems p0 rest := by
    rw [hio, inorder_operand]; rfl
  refine ⟨T, s1, ?_, hcur, hlex, hio2, hok, ?_⟩
  · rw [ParseExpression, hprim]
    exact e
  · intro T1 h1 hok1
    exact ClimbOK_unique T1 hok1 T hok (by rw [h1, hio2])

/-- Instance of claim C19 on the input `1+2*3-4`: the parse succeeds at end of
input with the tree whose traversal is `1 + 2 * 3 - 4` and which satisfies the
two child conditions, and that tree is the only such tree. -/
theorem precedence_climbing_correct_witness :
    ∃ T s1, ParseExpression 6 (mainInit (bytes "1+2*3-4")) = some (some T, s1) ∧
      s1.CurTok = tok_eof ∧ s1.lex = lexAfter 7 (mainInit (bytes "1+2*3-4")).lex ∧
      inorder T = chainItems (Operand.num ⟨1, 0⟩)
        [(chr '+', Operand.num ⟨2, 0⟩), (chr '*', Operand.num ⟨3, 0⟩),
         (chr '-', Operand.num ⟨4, 0⟩)] ∧
      ClimbOK T ∧
      ∀ T1, inorder T1 = chainItems (Operand.num ⟨1, 0⟩)
        [(chr '+', Operand.num ⟨2, 0⟩), (chr '*', Operand.num ⟨3, 0⟩),
         (chr '-', Operand.num ⟨4, 0⟩)] → ClimbOK T1 → T1 = T :=
  precedence_climbing_correct (Operand.num ⟨1, 0⟩)
    [(chr '+', Operand.num ⟨2, 0⟩), (chr '*', Operand.num ⟨3, 0⟩), (chr '-', Operand.num ⟨4, 0⟩)]
    tok_eof (chr '+') (mainInit (bytes "1+2*3-4"))
    (lexAfter 1 (mainInit (bytes "1+2*3-4")).lex) (lexAfter 7 (mainInit (bytes "1+2*3-4")).lex) 6
    rfl
    (by
      intro x hx
      simp only [List.mem_cons, List.mem_singleton, List.not_mem_nil, or_false] at hx
      rcases hx with rfl | rfl | rfl
      · exact ⟨20, by decide⟩
      · exact ⟨40, by decide⟩
      · exact ⟨20, by decide⟩)
    (by decide) rfl rfl (by decide) trivial
    ⟨rfl, lexAfter 2 (mainInit (bytes "1+2*3-4")).lex, lexAfter 3 (mainInit (bytes "1+2*3-4")).lex,
      chr '*', by decide, rfl, by decide, trivial,
      rfl, lexAfter 4 (mainInit (bytes "1+2*3-4")).lex, lexAfter 5 (mainInit (bytes "1+2*3-4")).lex,
      chr '-', by decide, rfl, by decide, trivial,
      rfl, lexAfter 6 (mainInit (bytes "1+2*3-4")).lex, lexAfter 7 (mainInit (bytes "1+2*3-4")).lex,
      tok_eof, by decide, rfl, by decide, trivial, rfl, rfl⟩
    (by decide)

/-! ## Termination -/

theorem charsLeft_le (c : Int) (inp : List Nat) : charsLeft c inp ≤ inp.length + 1 := by
  unfold charsLeft; split_ifs <;> omega

theorem charsLeft_byte (b : Nat) (inp : List Nat) : charsLeft (byte b) inp = inp.length + 1 := by
  have h : byte b ≠ EOF := by
    have := byte_ge b
    have hE : (EOF : Int) = -1 := rfl
    unfold byte at this ⊢
    omega
  simp [charsLeft, h]

theorem charsLeft_getchar (inp : List Nat) :
    charsLeft (getchar inp).1 (getchar inp).2 ≤ inp.length := by
  cases inp with
  | nil => simp [getchar, charsLeft]
  | cons b rest => simp [getchar, charsLeft_byte]

theorem charsLeft_skipSpace (inp : List Nat) :
    ∀ c : Int, charsLeft (skipSpace c inp).1 (skipSpace c inp).2 ≤ charsLeft c inp := by
  induction inp with
  | nil =>
    intro c
    simp only [skipSpace]
    split_ifs with h
    · simp [charsLeft]
    · exact le_refl _
  | cons b rest ih =>
    intro c
    simp only [skipSpace]
    split_ifs with h
    · have hc : c ≠ EOF := by intro e; rw [e] at h; exact absurd h (by decide)
      have h1 := ih (byte b)
      rw [charsLeft_byte] at h1
      have h2 : charsLeft c (b :: rest) = rest.length + 1 + 1 := by
        simp [charsLeft, hc]
      rw [h2]
      omega
    · exact le_refl _

theorem charsLeft_skipComment (inp : List Nat) :
    charsLeft (skipComment inp).1 (skipComment inp).2 ≤ inp.length := by
  induction inp with
  | nil => simp [skipComment, charsLeft]
  | cons b rest ih =>
    simp only [skipComment]
    split_ifs
    · exact Nat.le_succ_of_le ih
    · simp [charsLeft_byte]

theorem charsLeft_readIdent (inp : List Nat) :
    ∀ acc : String, charsLeft (readIdent acc inp).2.1 (readIdent acc inp).2.2 ≤ inp.length := by
  induction inp with
  | nil => intro acc; simp [readIdent, charsLeft]
  | cons b rest ih =>
    intro acc
    simp only [readIdent]
    split_ifs
    · exact Nat.le_succ_of_le (ih _)
    · simp [charsLeft_byte]

theorem charsLeft_readNumber (inp : List Nat) :
    ∀ acc : String, charsLeft (readNumber acc inp).2.1 (readNumber acc inp).2.2 ≤ inp.length := by
  induction inp with
  | nil => intro acc; simp [readNumber, charsLeft]
  | cons b rest ih =>
    intro acc
    simp only [readNumber]
    split_ifs
    · exact Nat.le_succ_of_le (ih _)
    · simp [charsLeft_byte]

/-- A call of `gettok` never leaves more to process, and leaves strictly less
when it returns a token other than `tok_eof`. -/
theorem gettokAux_lexSize (n : Nat) :
    ∀ s : LexState, s.input.length < n →
      lexSize (gettokAux n s).2 ≤ lexSize s ∧
      ((gettokAux n s).1 ≠ tok_eof → lexSize (gettokAux n s).2 < lexSize s) := by
  induction n with
  | zero => intro s h; omega
  | succ n ih =>
    intro s hn
    rw [gettokAux]
    have hlen := skipSpace_length s.input s.LastChar
    have hsz : charsLeft (skipSpace s.LastChar s.input).1 (skipSpace s.LastChar s.input).2 ≤
        lexSize s := charsLeft_skipSpace s.input s.LastChar
    rcases hsk : skipSpace s.LastChar s.input with ⟨c, inp⟩
    rw [hsk] at hlen hsz
    simp only at hlen hsz ⊢
    have hne : c ≠ EOF → inp.length < lexSize s := by
      intro h
      simp only [charsLeft, h, if_false] at hsz
      omega
    split_ifs with h1 h2 h3 h4 h5 h6 h7
    · have h8 := charsLeft_readIdent inp (String.singleton (toChar c))
      have h9 := hne (by intro e; rw [e] at h1; exact absurd h1 (by decide))
      exact ⟨le_trans (b := inp.length) h8 (by omega),
        fun _ => lt_of_le_of_lt (b := inp.length) h8 h9⟩
    · have h8 := charsLeft_readIdent inp (String.singleton (toChar c))
      have h9 := hne (by intro e; rw [e] at h1; exact absurd h1 (by decide))
      exact ⟨le_trans (b := inp.length) h8 (by omega),
        fun _ => lt_of_le_of_lt (b := inp.length) h8 h9⟩
    · have h8 := charsLeft_readIdent inp (String.singleton (toChar c))
      have h9 := hne (by intro e; rw [e] at h1; exact absurd h1 (by decide))
      exact ⟨le_trans (b := inp.length) h8 (by omega),
        fun _ => lt_of_le_of_lt (b := inp.length) h8 h9⟩
    · have h8 := charsLeft_readNumber inp (String.singleton (toChar c))
      have h9 := hne (by intro e; rw [e] at h4; exact absurd h4 (by decide))
      exact ⟨le_trans (b := inp.length) h8 (by omega),
        fun _ => lt_of_le_of_lt (b := inp.length) h8 h9⟩
    · have h8 := charsLeft_skipComment inp
      have h9 := hne (by intro e; rw [e] at h5; exact absurd h5 (by decide))
      have hcl := skipComment_length inp (by simpa using h6)
      have i1 := (ih (LexState.mk (skipComment inp).2 (skipComment inp).1 s.IndentifierStr s.NumVal)
        (show (skipComment inp).2.length < n by omega)).1
      exact ⟨le_trans i1 (le_trans (b := inp.length) h8 (by omega)),
        fun _ => lt_of_le_of_lt i1 (lt_of_le_of_lt (b := inp.length) h8 h9)⟩
    · have h8 := charsLeft_skipComment inp
      have h9 := hne (by intro e; rw [e] at h5; exact absurd h5 (by decide))
      exact ⟨le_trans (b := inp.length) h8 (by omega),
        fun _ => lt_of_le_of_lt (b := inp.length) h8 h9⟩
    · exact ⟨hsz, fun h => absurd rfl h⟩
    · have h8 := charsLeft_getchar inp
      have h9 := hne (by simpa using h7)
      exact ⟨le_trans (b := inp.length) h8 (by omega),
        fun _ => lt_of_le_of_lt (b := inp.length) h8 h9⟩

theorem gettok_lexSize (lx : LexState) :
    lexSize (gettok lx).2 ≤ lexSize lx ∧
    ((gettok lx).1 ≠ tok_eof → lexSize (gettok lx).2 < lexSize lx) :=
  gettokAux_lexSize _ lx (Nat.lt_succ_self _)

theorem pending_getNextToken (s : PState) : pending (getNextToken s) ≤ lexSize s.lex := by
  obtain ⟨h1, h2⟩ := gettok_lexSize s.lex
  show lexSize (gettok s.lex).2 + (if (gettok s.lex).1 = tok_eof then 0 else 1) ≤ lexSize s.lex
  split_ifs with h
  · omega
  · have := h2 h; omega

theorem pending_getNextToken_le (s : PState) : pending (getNextToken s) ≤ pending s := by
  have := pending_getNextToken s
  unfold pending at this ⊢
  omega

theorem pending_getNextToken_lt (s : PState) (h : s.CurTok ≠ tok_eof) :
    pending (getNextToken s) + 1 ≤ pending s := by
  have h1 := pending_getNextToken s
  have h2 : pending s = lexSize s.lex + 1 := by simp [pending, h]
  omega

theorem pending_GetTokPrecedence (s : PState) :
    pending (GetTokPrecedence s).2 = pending s ∧
    (GetTokPrecedence s).2.CurTok = s.CurTok ∧
    (GetTokPrecedence s).1 = precOf s.BinopPrecedence s.CurTok := by
  have e := GetTokPrecedence_eq s
  refine ⟨by rw [e]; rfl, by rw [e], by rw [e]⟩

theorem pending_LogError (Str : String) (s : PState) : pending (LogError Str s).2 = pending s :=
  rfl

theorem precOf_eof (tbl : Table) : precOf tbl tok_eof = -1 := by
  simp [precOf, isascii]

/-- With fuel that grows linearly with what is left to parse, each of the
mutually recursive parser functions returns, and none leaves more to parse
than it found. -/
theorem parser_returns (n : Nat) :
    (∀ s, s.CurTok ≠ tok_eof → 3 * pending s + 1 ≤ n → Consumes s (ParseParenExpr n s)) ∧
    (∀ Args s, 3 * pending s + 4 ≤ n → Returns s (ParseCallArgs n Args s)) ∧
    (∀ s, s.CurTok ≠ tok_eof → 3 * pending s + 1 ≤ n → Consumes s (ParseIndentifierExpr n s)) ∧
    (∀ s, 3 * pending s + 2 ≤ n → Progress s (ParsePrimary n s)) ∧
    (∀ ExprPrec LHS s, 0 ≤ ExprPrec → 3 * pending s + 3 ≤ n →
      Returns s (ParseBinOpRHS n ExprPrec LHS s)) ∧
    (∀ s, 3 * pending s + 3 ≤ n → Progress s (ParseExpression n s)) := by
  induction n with
  | zero =>
    refine ⟨?_, ?_, ?_, ?_, ?_, ?_⟩ <;> intros <;> omega
  | succ n ih =>
    obtain ⟨ihParen, ihArgs, ihIdent, ihPrim, ihBin, ihExpr⟩ := ih
    refine ⟨?_, ?_, ?_, ?_, ?_, ?_⟩
    · -- ParseParenExpr
      intro s hcur hn
      rw [ParseParenExpr]
      have hlt := pending_getNextToken_lt s hcur
      obtain ⟨o, s2, e, hle, -, -⟩ := ihExpr (getNextToken s) (by omega)
      simp only [e]
      cases o with
      | none => exact ⟨none, s2, rfl, by omega⟩
      | some V =>
        simp only
        split_ifs
        · exact ⟨none, (LogError "expected ')'" s2).2, rfl, by rw [pending_LogError]; omega⟩
        · exact ⟨some V, getNextToken s2, rfl, by have := pending_getNextToken_le s2; omega⟩
    · -- ParseCallArgs
      intro Args s hn
      rw [ParseCallArgs]
      obtain ⟨o, s1, e, hle, hs, -⟩ := ihExpr s (by omega)
      simp only [e]
      cases o with
      | none => exact ⟨none, s1, rfl, hle⟩
      | some Arg =>
        simp only
        split_ifs with h1 h2
        · exact ⟨some (Args ++ [Arg]), s1, rfl, hle⟩
        · exact ⟨none, _, rfl, by rw [pending_LogError]; exact hle⟩
        · have h3 := pending_getNextToken_le s1
          have h4 := hs (by simp)
          obtain ⟨o2, s2, e2, hle2⟩ := ihArgs (Args ++ [Arg]) (getNextToken s1) (by omega)
          exact ⟨o2, s2, e2, by omega⟩
    · -- ParseIndentifierExpr
      intro s hcur hn
      rw [ParseIndentifierExpr]
      have hlt := pending_getNextToken_lt s hcur
      simp only
      split_ifs with h1 h2
      · exact ⟨some (VariableExprAST s.lex.IndentifierStr), getNextToken s, rfl, by omega⟩
      · have hpar : (getNextToken s).CurTok ≠ tok_eof := by
          intro h
          rw [h] at h1
          exact h1 (by decide)
        have hlt2 := pending_getNextToken_lt (getNextToken s) hpar
        obtain ⟨o, s3, e, hle⟩ := ihArgs [] (getNextToken (getNextToken s)) (by omega)
        simp only [e]
        cases o with
        | none => exact ⟨none, s3, rfl, by omega⟩
        | some A => exact ⟨some (CallExprAST s.lex.IndentifierStr A), s3, rfl, by omega⟩
      · have h3 := pending_getNextToken_le (getNextToken s)
        exact ⟨some (CallExprAST s.lex.IndentifierStr []), getNextToken (getNextToken s), rfl,
          by omega⟩
    · -- ParsePrimary
      intro s hn
      rw [ParsePrimary]
      split_ifs with h1 h2 h3
      · obtain ⟨o, s1, e, hlt⟩ := ihIdent s (by rw [h1]; decide) (by omega)
        exact ⟨o, s1, e, by omega, fun _ => hlt, fun _ => Or.inl hlt⟩
      · have hlt := pending_getNextToken_lt s (by rw [h2]; decide)
        exact ⟨some (NumberExprAST s.lex.NumVal), getNextToken s, rfl, by omega,
          fun _ => by omega, fun h => by simp at h⟩
      · obtain ⟨o, s1, e, hlt⟩ := ihParen s (by rw [h3]; decide) (by omega)
        exact ⟨o, s1, e, by omega, fun _ => hlt, fun _ => Or.inl hlt⟩
      · exact ⟨none, (LogError "Unkown token when expecting an expression" s).2, rfl,
          le_refl _, fun h => absurd rfl h, fun _ => Or.inr ⟨rfl, rfl⟩⟩
    · -- ParseBinOpRHS
      intro ExprPrec LHS s hE hn
      rw [ParseBinOpRHS]
      obtain ⟨hp, hc, hv⟩ := pending_GetTokPrecedence s
      rcases hg : GetTokPrecedence s with ⟨TokPrec, s1⟩
      rw [hg] at hp hc hv
      simp only at hp hc hv ⊢
      split_ifs with hlt
      · exact ⟨some LHS, s1, rfl, by omega⟩
      · have hne : s1.CurTok ≠ tok_eof := by
          intro h
          rw [hc] at h
          rw [h, precOf_eof] at hv
          omega
        have hlt2 := pending_getNextToken_lt s1 hne
        obtain ⟨o, s3, e3, hle3, hs3, -⟩ := ihPrim (getNextToken s1) (by omega)
        simp only [e3]
        cases o with
        | none => exact ⟨none, s3, rfl, by omega⟩
        | some RHS =>
          have hlt3 := hs3 (by simp)
          simp only
          obtain ⟨hp4, -, -⟩ := pending_GetTokPrecedence s3
          rcases hg4 : GetTokPrecedence s3 with ⟨NextPrec, s4⟩
          rw [hg4] at hp4
          simp only at hp4 ⊢
          split_ifs with hclimb
          · obtain ⟨o5, s5, e5, hle5⟩ := ihBin (TokPrec + 1) RHS s4 (by omega) (by omega)
            simp only [e5]
            cases o5 with
            | none => exact ⟨none, s5, rfl, by omega⟩
            | some RHS1 =>
              obtain ⟨o6, s6, e6, hle6⟩ :=
                ihBin ExprPrec (BinaryExprAST s1.CurTok LHS RHS1) s5 hE (by omega)
              exact ⟨o6, s6, e6, by omega⟩
          · obtain ⟨o6, s6, e6, hle6⟩ :=
              ihBin ExprPrec (BinaryExprAST s1.CurTok LHS RHS) s4 hE (by omega)
            exact ⟨o6, s6, e6, by omega⟩
    · -- ParseExpression
      intro s hn
      rw [ParseExpression]
      obtain ⟨o, s1, e, hle, hs, hf⟩ := ihPrim s (by omega)
      simp only [e]
      cases o with
      | none => exact ⟨none, s1, rfl, hle, fun h => absurd rfl h, fun _ => hf rfl⟩
      | some LHS =>
        have hlt := hs (by simp)
        obtain ⟨o2, s2, e2, hle2⟩ := ihBin 0 LHS s1 (le_refl _) (by omega)
        exact ⟨o2, s2, e2, by omega, fun _ => by omega, fun _ => Or.inl (by omega)⟩

theorem ParseProtoArgs_returns (n : Nat) :
    ∀ (acc : List String) (s : PState), s.CurTok ≠ tok_eof → pending s ≤ n →
      ∃ names s1, ParseProtoArgs n acc s = some (names, s1) ∧ pending s1 < pending s := by
  induction n with
  | zero =>
    intro acc s hcur hn
    have : pending s = lexSize s.lex + 1 := by simp [pending, hcur]
    omega
  | succ n ih =>
    intro acc s hcur hn
    have hlt := pending_getNextToken_lt s hcur
    rw [ParseProtoArgs]
    split_ifs with h
    · obtain ⟨names, s1, e, hlt1⟩ :=
        ih (acc ++ [(getNextToken s).lex.IndentifierStr]) (getNextToken s)
          (by rw [h]; decide) (by omega)
      exact ⟨names, s1, e, by omega⟩
    · exact ⟨acc, getNextToken s, rfl, by omega⟩

theorem ParsePrototype_returns (fuel : Nat) (s : PState) (hn : pending s ≤ fuel) :
    Returns s (ParsePrototype fuel s) := by
  unfold ParsePrototype
  simp only
  split_ifs with h1 h2
  · exact ⟨none, _, rfl, by rw [pending_LogError]⟩
  · exact ⟨none, _, rfl, by rw [pending_LogError]; exact pending_getNextToken_le s⟩
  · have hle := pending_getNextToken_le s
    have hpar : (getNextToken s).CurTok ≠ tok_eof := by
      intro h
      rw [h] at h2
      exact h2 (by decide)
    obtain ⟨names, s2, e, hlt⟩ := ParseProtoArgs_returns fuel [] (getNextToken s) hpar (by omega)
    simp only [e]
    split_ifs
    · exact ⟨none, _, rfl, by rw [pending_LogError]; omega⟩
    · exact ⟨some _, getNextToken s2, rfl, by have := pending_getNextToken_le s2; omega⟩

theorem ParseDefinition_returns (fuel : Nat) (s : PState) (hn : 3 * pending s + 3 ≤ fuel) :
    ∃ o s1, ParseDefinition fuel s = some (o, s1) ∧ pending s1 ≤ pending s ∧
      (s.CurTok ≠ tok_eof → pending s1 < pending s) := by
  unfold ParseDefinition
  dsimp only
  have hle := pending_getNextToken_le s
  have hlt : s.CurTok ≠ tok_eof → pending (getNextToken s) + 1 ≤ pending s :=
    pending_getNextToken_lt s
  obtain ⟨o, s2, e, hle2⟩ := ParsePrototype_returns fuel (getNextToken s) (by omega)
  simp only [e]
  cases o with
  | none => exact ⟨none, s2, rfl, by omega, fun h => by have := hlt h; omega⟩
  | some Proto =>
    simp only
    obtain ⟨o3, s3, e3, hle3, -, -⟩ := (parser_returns fuel).2.2.2.2.2 s2 (by omega)
    simp only [e3]
    cases o3 with
    | none => exact ⟨none, s3, rfl, by omega, fun h => by have := hlt h; omega⟩
    | some E => exact ⟨some _, s3, rfl, by omega, fun h => by have := hlt h; omega⟩

theorem ParseExtern_returns (fuel : Nat) (s : PState) (hn : pending s ≤ fuel) :
    ∃ o s1, ParseExtern fuel s = some (o, s1) ∧ pending s1 ≤ pending s ∧
      (s.CurTok ≠ tok_eof → pending s1 < pending s) := by
  unfold ParseExtern
  dsimp only
  have hle := pending_getNextToken_le s
  have hlt : s.CurTok ≠ tok_eof → pending (getNextToken s) + 1 ≤ pending s :=
    pending_getNextToken_lt s
  obtain ⟨o, s2, e, hle2⟩ := ParsePrototype_returns fuel (getNextToken s) (by omega)
  exact ⟨o, s2, e, by omega, fun h => by have := hlt h; omega⟩

theorem ParseTopLevelExpr_returns (fuel : Nat) (s : PState) (hn : 3 * pending s + 3 ≤ fuel) :
    Progress s (ParseTopLevelExpr fuel s) := by
  unfold ParseTopLevelExpr
  obtain ⟨o, s1, e, hle, hs, hf⟩ := (parser_returns fuel).2.2.2.2.2 s hn
  simp only [e]
  cases o with
  | none => exact ⟨none, s1, rfl, hle, fun h => absurd rfl h, fun _ => hf rfl⟩
  | some E => exact ⟨some _, s1, rfl, hle, fun _ => hs (by simp), fun h => by simp at h⟩

theorem HandleDefinition_returns (fuel : Nat) (s : PState) (hcur : s.CurTok ≠ tok_eof)
    (hn : 3 * pending s + 3 ≤ fuel) :
    ∃ s1, HandleDefinition fuel s = some s1 ∧ pending s1 < pending s := by
  unfold HandleDefinition
  obtain ⟨o, s1, e, -, hlt⟩ := ParseDefinition_returns fuel s hn
  have hlt1 := hlt hcur
  simp only [e]
  cases o with
  | none => exact ⟨getNextToken s1, rfl, by have := pending_getNextToken_le s1; omega⟩
  | some F => exact ⟨_, rfl, hlt1⟩

theorem HandleExtern_returns (fuel : Nat) (s : PState) (hcur : s.CurTok ≠ tok_eof)
    (hn : 3 * pending s + 3 ≤ fuel) :
    ∃ s1, HandleExtern fuel s = some s1 ∧ pending s1 < pending s := by
  unfold HandleExtern
  obtain ⟨o, s1, e, -, hlt⟩ := ParseExtern_returns fuel s (by omega)
  have hlt1 := hlt hcur
  simp only [e]
  cases o with
  | none => exact ⟨getNextToken s1, rfl, by have := pending_getNextToken_le s1; omega⟩
  | some P => exact ⟨_, rfl, hlt1⟩

theorem HandleTopLevelExpression_returns (fuel : Nat) (s : PState) (hcur : s.CurTok ≠ tok_eof)
    (hn : 3 * pending s + 3 ≤ fuel) :
    ∃ s1, HandleTopLevelExpression fuel s = some s1 ∧ pending s1 < pending s := by
  unfold HandleTopLevelExpression
  obtain ⟨o, s1, e, hle, hs, hf⟩ := ParseTopLevelExpr_returns fuel s hn
  simp only [e]
  cases o with
  | none =>
    refine ⟨getNextToken s1, rfl, ?_⟩
    rcases hf rfl with h | ⟨h1, h2⟩
    · have := pending_getNextToken_le s1; omega
    · have := pending_getNextToken_lt s1 (by rw [h1]; exact hcur); omega
  | some F => exact ⟨_, rfl, hs (by simp)⟩

theorem MainLoop_returns (n : Nat) :
    ∀ s : PState, 3 * pending s + 4 ≤ n →
      ∃ sEnd, MainLoop n s = some sEnd ∧ sEnd.CurTok = tok_eof := by
  induction n with
  | zero => intro s h; omega
  | succ n ih =>
    intro s hn
    rw [MainLoop]
    simp only
    split_ifs with h1 h2 h3 h4
    · exact ⟨_, rfl, h1⟩
    · have hlt := pending_getNextToken_lt (PState.mk s.lex s.CurTok s.BinopPrecedence
        (s.stderr ++ ["ready> "])) h1
      have hp : pending (PState.mk s.lex s.CurTok s.BinopPrecedence (s.stderr ++ ["ready> "])) =
        pending s := rfl
      exact ih _ (by omega)
    · obtain ⟨s1, e, hlt⟩ := HandleDefinition_returns n (PState.mk s.lex s.CurTok
        s.BinopPrecedence (s.stderr ++ ["ready> "])) h1 (by
          have hp : pending (PState.mk s.lex s.CurTok s.BinopPrecedence
            (s.stderr ++ ["ready> "])) = pending s := rfl
          omega)
      have hp : pending (PState.mk s.lex s.CurTok s.BinopPrecedence (s.stderr ++ ["ready> "])) =
        pending s := rfl
      simp only [e]
      exact ih s1 (by omega)
    · obtain ⟨s1, e, hlt⟩ := HandleExtern_returns n (PState.mk s.lex s.CurTok
        s.BinopPrecedence (s.stderr ++ ["ready> "])) h1 (by
          have hp : pending (PState.mk s.lex s.CurTok s.BinopPrecedence
            (s.stderr ++ ["ready> "])) = pending s := rfl
          omega)
      have hp : pending (PState.mk s.lex s.CurTok s.BinopPrecedence (s.stderr ++ ["ready> "])) =
        pending s := rfl
      simp only [e]
      exact ih s1 (by omega)
    · obtain ⟨s1, e, hlt⟩ := HandleTopLevelExpression_returns n (PState.mk s.lex s.CurTok
        s.BinopPrecedence (s.stderr ++ ["ready> "])) h1 (by
          have hp : pending (PState.mk s.lex s.CurTok s.BinopPrecedence
            (s.stderr ++ ["ready> "])) = pending s := rfl
          omega)
      have hp : pending (PState.mk s.lex s.CurTok s.BinopPrecedence (s.stderr ++ ["ready> "])) =
        pending s := rfl
      simp only [e]
      exact ih s1 (by omega)

/-- Claim C18: for every finite input the driver terminates. With fuel above
three times what is left to parse plus four, `MainLoop` started by `main`
returns, in a state whose current token is `tok_eof`; each parser entry point
returns, with a node or with null; and each of the three handlers the loop
dispatches to, called when the current token is not `tok_eof`, returns having
consumed at least one token (`gettok` itself is a total function). -/
theorem driver_terminates (inp : List Nat) :
    (∀ fuel, 3 * pending (mainInit inp) + 4 ≤ fuel →
      ∃ sEnd, MainLoop fuel (mainInit inp) = some sEnd ∧ sEnd.CurTok = tok_eof) ∧
    (∀ (s : PState) (fuel : Nat), 3 * pending s + 3 ≤ fuel →
      (∃ r, ParsePrimary fuel s = some r) ∧
      (∃ r, ParseExpression fuel s = some r) ∧
      (∃ r, ParsePrototype fuel s = some r) ∧
      (∃ r, ParseDefinition fuel s = some r) ∧
      (∃ r, ParseExtern fuel s = some r) ∧
      (∃ r, ParseTopLevelExpr fuel s = some r)) ∧
    (∀ (s : PState) (fuel : Nat), s.CurTok ≠ tok_eof → 3 * pending s + 3 ≤ fuel →
      (∃ s1, HandleDefinition fuel s = some s1 ∧ pending s1 < pending s) ∧
      (∃ s1, HandleExtern fuel s = some s1 ∧ pending s1 < pending s) ∧
      (∃ s1, HandleTopLevelExpression fuel s = some s1 ∧ pending s1 < pending s)) := by
  refine ⟨fun fuel h => MainLoop_returns fuel (mainInit inp) h, ?_, ?_⟩
  · intro s fuel h
    obtain ⟨o1, t1, e1, -⟩ := (parser_returns fuel).2.2.2.1 s (by omega)
    obtain ⟨o2, t2, e2, -⟩ := (parser_returns fuel).2.2.2.2.2 s h
    obtain ⟨o3, t3, e3, -⟩ := ParsePrototype_returns fuel s (by omega)
    obtain ⟨o4, t4, e4, -⟩ := ParseDefinition_returns fuel s h
    obtain ⟨o5, t5, e5, -⟩ := ParseExtern_returns fuel s (by omega)
    obtain ⟨o6, t6, e6, -⟩ := ParseTopLevelExpr_returns fuel s h
    exact ⟨⟨_, e1⟩, ⟨_, e2⟩, ⟨_, e3⟩, ⟨_, e4⟩, ⟨_, e5⟩, ⟨_, e6⟩⟩
  · intro s fuel hcur h
    exact ⟨HandleDefinition_returns fuel s hcur h, HandleExtern_returns fuel s hcur h,
      HandleTopLevelExpression_returns fuel s hcur h⟩

/-- Instance of claim C18 on the input `def f(x) x+1; f(2) )`, which holds a
definition, an empty statement, a call and a stray parenthesis: with fuel 100
the loop returns at end of input. -/
theorem driver_terminates_witness :
    ∃ sEnd, MainLoop 100 (mainInit (bytes "def f(x) x+1; f(2) )")) = some sEnd ∧
      sEnd.CurTok = tok_eof :=
  (driver_terminates (bytes "def f(x) x+1; f(2) )")).1 100 (by decide)

end Kaleidoscope
